import Mathlib

/-!
Shallow embedding of the elysium search/indexing core.

Sources embedded here:
* `src/plugin/wasm/src/hnsw/mod.rs`  — the HNSW vector index (`HnswIndex`):
  `new`, `len`, `is_empty`, `cosine_similarity`, `distance`, `insert`,
  `search_layer_single`, `search_layer`, `select_neighbors_from_candidates`,
  `search`, `delete`, `contains`.
* `src/plugin/wasm/src/lib.rs` — the deterministic embedder: `tokenize`,
  `token_to_integer`, `embed_token`, `embed_text`, `cosine_similarity`.
* `src/mcp/src/search/hybrid.rs` — `HybridConfig`, `fuse_rrf`.
* `src/mcp/src/search/plugin_index.rs` — `PLUGIN_INDEX_VERSION`,
  `PluginSearchEngine::load` (its decision pipeline).

Modelling conventions:
* f32/f64 values stored in data structures are exact rationals (`ℚ`); every
  arithmetic result (dot products, square roots, sines) is an exact real
  (`ℝ`).  This is the exact-arithmetic model of the floating-point code: the
  spec's "within epsilon" statements become exact equalities.
* `HashMap<String, usize>` is an insertion-ordered association list,
  `HashSet<usize>` is a `Finset ℕ`.
* Rust's `BinaryHeap` pop order among equal keys is unspecified; the model
  pops the first element attaining the extremum.  Rust's stable
  `slice::sort_by` is modelled by `List.insertionSort`, which is stable.
* The `rand::random` level draw in `insert` is modelled by passing the drawn
  level as an explicit argument, so "for every sequence of operations"
  quantifies over all possible level draws.
* Loops (`loop`/`while`) are modelled with an explicit fuel argument that is
  provably larger than the number of iterations the Rust loop can make; the
  fuel-exhaustion branch returns the loop state exactly like the Rust
  `break`.
-/

namespace Elysium

/-- A vector of f32 components, each component an exact rational. -/
abbrev Vec := List ℚ

/-- Source `const M: usize = 16` from `hnsw/mod.rs`. -/
def M : ℕ := 16

/-- Source `const M_MAX: usize = M`. -/
def M_MAX : ℕ := M

/-- Source `const M_MAX_0: usize = M * 2`. -/
def M_MAX_0 : ℕ := M * 2

/-- Source `const EF_CONSTRUCTION: usize = 200`. -/
def EF_CONSTRUCTION : ℕ := 200

/-- Source `f32::MAX = (2^24 - 1) * 2^104`, used by `search_layer` as the
"no results yet" worst distance. -/
def F32_MAX : ℚ := (2 ^ 24 - 1) * 2 ^ 104

/-- Sum of squares of a vector's components (the argument of the `sqrt` in
`norm_a`/`norm_b` of `cosine_similarity`). -/
def sumSq (a : Vec) : ℚ := (a.map fun x => x * x).sum

/-- The dot product `a.iter().zip(b.iter()).map(|(x, y)| x * y).sum()`;
`zip` stops at the shorter list exactly like `zipWith`. -/
def dotQ (a b : Vec) : ℚ := (List.zipWith (fun x y => x * y) a b).sum

/-- Source `HnswIndex::cosine_similarity` from `hnsw/mod.rs` (identical to the free
function `cosine_similarity` in `lib.rs`): returns 0 when the lengths differ,
otherwise `dot / (norm_a * norm_b)` guarded by `norm_a > 0 && norm_b > 0`,
else 0. -/
noncomputable def cosineSimilarity (a b : Vec) : ℝ :=
  if a.length ≠ b.length then 0
  else
    let dot : ℝ := (dotQ a b : ℚ)
    let normA : ℝ := Real.sqrt (sumSq a : ℚ)
    let normB : ℝ := Real.sqrt (sumSq b : ℚ)
    if 0 < normA ∧ 0 < normB then dot / (normA * normB) else 0

/-- Source `HnswIndex::distance`: `1.0 - cosine_similarity(a, b)`. -/
noncomputable def hnswDistance (a b : Vec) : ℝ := 1 - cosineSimilarity a b

/-- A graph node (`struct Node` in `hnsw/mod.rs`). -/
structure Node where
  id : String
  vector : Vec
  level : ℕ
  neighbors : List (List ℕ)
deriving DecidableEq, Repr

/-- Default node used to model Rust's (panicking) out-of-bounds access; all
theorems that touch it carry the in-range facts needed to rule it out. -/
def defaultNode : Node := ⟨"", [], 0, []⟩

/-- The index state (`struct HnswIndex` in `hnsw/mod.rs`). -/
structure HnswIndex where
  nodes : List Node
  entry_point : Option ℕ
  max_level : ℕ
  id_to_idx : List (String × ℕ)
  deleted : Finset ℕ

/-- Source `HnswIndex::new`. -/
def HnswIndex.new : HnswIndex := ⟨[], none, 0, [], ∅⟩

/-- Source `HnswIndex::len`: `self.nodes.len() - self.deleted.len()`. -/
def HnswIndex.len (s : HnswIndex) : ℕ := s.nodes.length - s.deleted.card

/-- Source `HnswIndex::is_empty`. -/
def HnswIndex.isEmpty (s : HnswIndex) : Bool := s.len = 0

/-- Access `self.nodes[i]` (panics in Rust when out of range; modelled by
`defaultNode`). -/
def HnswIndex.nodeAt (s : HnswIndex) (i : ℕ) : Node := s.nodes.getD i defaultNode

/-- Access `node.neighbors[lc]`, defaulting to the empty list: the code always
guards real accesses either by `lc <= neighbor_level` or by
`level < self.nodes[c].neighbors.len()`, and an absent layer behaves like an
empty neighbor list. -/
def neighborsAt (nd : Node) (lc : ℕ) : List ℕ := nd.neighbors.getD lc []

/-- Source `HnswIndex::contains`. -/
def HnswIndex.contains (s : HnswIndex) (id : String) : Bool :=
  match s.id_to_idx.lookup id with
  | some idx => if idx ∈ s.deleted then false else true
  | none => false

/-- Source `HnswIndex::delete`: marks the slot tombstoned, returns whether the id
was known (tombstoned or not). -/
def HnswIndex.delete (s : HnswIndex) (id : String) : Bool × HnswIndex :=
  match s.id_to_idx.lookup id with
  | some idx => (true, { s with deleted := insert idx s.deleted })
  | none => (false, s)

/-- In-place list update at an index (`self.nodes[i] = ...` patterns);
out-of-range updates are unreachable in the states the theorems reach. -/
def listModify (f : α → α) : ℕ → List α → List α
  | _, [] => []
  | 0, x :: t => f x :: t
  | i + 1, x :: t => x :: listModify f i t

/-- The descending range `(lo..=hi).rev()`: `[hi, hi-1, ..., lo]`, empty when
`hi < lo`. -/
def descRange (lo hi : ℕ) : List ℕ := (List.range' lo (hi + 1 - lo)).reverse

/-- A search candidate (`struct Candidate` / `struct FarCandidate`). -/
structure Cand where
  idx : ℕ
  distance : ℝ

/-- Pop the minimum-distance element (the `candidates` min-heap pop); the
first element attaining the minimum is chosen. -/
noncomputable def popMinC : List Cand → Option (Cand × List Cand)
  | [] => none
  | c :: rest =>
    match popMinC rest with
    | none => some (c, [])
    | some (m, rest') =>
      if c.distance ≤ m.distance then some (c, rest) else some (m, c :: rest')

/-- Pop the maximum-distance element (the `results` max-heap pop); the first
element attaining the maximum is chosen. -/
noncomputable def popMaxC : List Cand → Option (Cand × List Cand)
  | [] => none
  | c :: rest =>
    match popMaxC rest with
    | none => some (c, [])
    | some (m, rest') =>
      if m.distance ≤ c.distance then some (c, rest) else some (m, c :: rest')

/-- Models `results.peek().map(|r| r.distance).unwrap_or(f32::MAX)`. -/
noncomputable def peekWorst (results : List Cand) : ℝ :=
  match popMaxC results with
  | none => (F32_MAX : ℚ)
  | some (m, _) => m.distance

/-- Ascending stable sort by distance (`sort_by(partial_cmp(distance))` /
`BinaryHeap::into_sorted_vec`). -/
noncomputable def sortCandAsc (l : List Cand) : List Cand :=
  l.insertionSort fun a b => a.distance ≤ b.distance

/-- Source `HnswIndex::select_neighbors_from_candidates`: sort ascending by
distance, take `m`, keep indices. -/
noncomputable def selectNeighborsFromCandidates (candidates : List Cand) (m : ℕ) : List ℕ :=
  ((sortCandAsc candidates).take m).map Cand.idx

/-- One full pass of the greedy loop body in `search_layer_single`: scan the
pass-entry node's neighbor list, tracking the running best
`(current, current_dist, changed)`. -/
noncomputable def greedyPass (s : HnswIndex) (query : Vec)
    (start : ℕ × ℝ × Bool) (nbrs : List ℕ) : ℕ × ℝ × Bool :=
  nbrs.foldl
    (fun acc nb =>
      if nb ∈ s.deleted then acc
      else
        let d := hnswDistance query (s.nodeAt nb).vector
        if d < acc.2.1 then (nb, d, true) else acc)
    start

/-- The `loop { ... if !changed { break } }` of `search_layer_single`,
with fuel.  Each pass that changes `current` strictly decreases the current
distance, so the number of passes is bounded by the number of distinct
reachable nodes; the caller passes fuel exceeding that bound. -/
noncomputable def searchLayerSingleAux (s : HnswIndex) (query : Vec) (level : ℕ) :
    ℕ → ℕ → ℝ → ℕ
  | 0, current, _ => current
  | fuel + 1, current, currentDist =>
    let r := greedyPass s query (current, currentDist, false)
      (neighborsAt (s.nodeAt current) level)
    if r.2.2 then searchLayerSingleAux s query level fuel r.1 r.2.1 else current

/-- Source `HnswIndex::search_layer_single`. -/
noncomputable def searchLayerSingle (s : HnswIndex) (query : Vec) (ep level : ℕ) : ℕ :=
  searchLayerSingleAux s query level (s.nodes.length + 1) ep
    (hnswDistance query (s.nodeAt ep).vector)

/-- The body of the neighbor scan in `search_layer`: skip visited/tombstoned,
mark visited, and push into both heaps when the distance beats the worst
retained result or the result set is still smaller than `ef` (evicting the
worst when the result set exceeds `ef`). -/
noncomputable def scanNeighbor (s : HnswIndex) (query : Vec) (ef : ℕ)
    (st : Finset ℕ × List Cand × List Cand) (nb : ℕ) :
    Finset ℕ × List Cand × List Cand :=
  let visited := st.1
  let candidates := st.2.1
  let results := st.2.2
  if nb ∈ visited ∨ nb ∈ s.deleted then st
  else
    let visited' := insert nb visited
    let d := hnswDistance query (s.nodeAt nb).vector
    let worst := peekWorst results
    if d < worst ∨ results.length < ef then
      let candidates' := (⟨nb, d⟩ : Cand) :: candidates
      let results' := (⟨nb, d⟩ : Cand) :: results
      let results'' :=
        if ef < results'.length then
          match popMaxC results' with
          | none => results'
          | some (_, rest) => rest
        else results'
      (visited', candidates', results'')
    else (visited', candidates, results)

/-- The `while let Some(...) = candidates.pop()` loop of `search_layer`,
with fuel.  Every pushed candidate is freshly marked visited first, so the
iteration count is bounded by one plus the number of neighbor-list entries in
the whole graph; the caller passes fuel exceeding that bound. -/
noncomputable def searchLayerLoop (s : HnswIndex) (query : Vec) (ef level : ℕ) :
    ℕ → Finset ℕ × List Cand × List Cand → List Cand
  | 0, st => st.2.2
  | fuel + 1, st =>
    match popMinC st.2.1 with
    | none => st.2.2
    | some (c, rest) =>
      let results := st.2.2
      let worst := peekWorst results
      if worst < c.distance ∧ ef ≤ results.length then results
      else
        let st' := (neighborsAt (s.nodeAt c.idx) level).foldl
          (scanNeighbor s query ef) (st.1, rest, results)
        searchLayerLoop s query ef level fuel st'

/-- Total number of neighbor-list entries in the graph, used as the fuel
bound for `search_layer`'s loop. -/
def totalNeighborLen (s : HnswIndex) : ℕ :=
  (s.nodes.map fun nd => (nd.neighbors.map List.length).sum).sum

/-- Source `HnswIndex::search_layer`: seed both heaps with the entry point, run the
bounded best-first loop, and return the retained results sorted ascending by
distance (`into_sorted_vec`). -/
noncomputable def searchLayer (s : HnswIndex) (query : Vec) (ep ef level : ℕ) :
    List Cand :=
  let d := hnswDistance query (s.nodeAt ep).vector
  sortCandAsc (searchLayerLoop s query ef level (totalNeighborLen s + 2)
    ({ep}, [⟨ep, d⟩], [⟨ep, d⟩]))

/-- Source `HnswIndex::search`: empty-index guard, greedy descent from `max_level`
to 1, beam search at layer 0 with width `ef.max(k)`, filter tombstones, take
`k`, convert distance to similarity. -/
noncomputable def HnswIndex.search (s : HnswIndex) (query : Vec) (k ef : ℕ) :
    List (String × ℝ) :=
  match s.entry_point with
  | none => []
  | some ep0 =>
    if s.isEmpty then []
    else
      let ep := (descRange 1 s.max_level).foldl
        (fun ep lc => searchLayerSingle s query ep lc) ep0
      let candidates := searchLayer s query ep (max ef k) 0
      ((candidates.filter fun c => c.idx ∉ s.deleted).take k).map
        fun c => ((s.nodeAt c.idx).id, 1 - c.distance)

/-- The back-edge block inside `insert`'s per-layer loop: skip tombstoned
neighbors, push the new node onto the neighbor's list at `lc` when the
neighbor participates in that layer, and prune back to `m_max` (distances
measured from the neighbor's own vector, tombstoned candidates dropped) when
the list overflows. -/
noncomputable def addBackEdge (s : HnswIndex) (nodeIdx lc mMax neighborIdx : ℕ) :
    HnswIndex :=
  if neighborIdx ∈ s.deleted then s
  else
    let neighborLevel := (s.nodeAt neighborIdx).level
    if lc ≤ neighborLevel then
      let s1 : HnswIndex := { s with
        nodes := listModify
          (fun nd => { nd with
            neighbors := listModify (fun l => l ++ [nodeIdx]) lc nd.neighbors })
          neighborIdx s.nodes }
      if mMax < (neighborsAt (s1.nodeAt neighborIdx) lc).length then
        let neighborVec := (s1.nodeAt neighborIdx).vector
        let oldNeighbors := neighborsAt (s1.nodeAt neighborIdx) lc
        let candidates := (oldNeighbors.filter fun n => n ∉ s1.deleted).map
          fun n => (⟨n, hnswDistance neighborVec (s1.nodeAt n).vector⟩ : Cand)
        { s1 with
          nodes := listModify
            (fun nd => { nd with
              neighbors := listModify
                (fun _ => selectNeighborsFromCandidates candidates mMax)
                lc nd.neighbors })
            neighborIdx s1.nodes }
      else s1
    else s

/-- One iteration of `insert`'s `for lc in (0..=level.min(max_level)).rev()`
loop: beam-search the layer, select the new node's neighbor list, write it,
add back-edges, and advance the anchor to the nearest selected neighbor. -/
noncomputable def insertLayerStep (query : Vec) (nodeIdx : ℕ)
    (acc : HnswIndex × ℕ) (lc : ℕ) : HnswIndex × ℕ :=
  let s := acc.1
  let ep := acc.2
  let mMax := if lc = 0 then M_MAX_0 else M_MAX
  let neighborsAtLevel := searchLayer s query ep EF_CONSTRUCTION lc
  let selected := selectNeighborsFromCandidates neighborsAtLevel mMax
  let s1 : HnswIndex := { s with
    nodes := listModify
      (fun nd => { nd with neighbors := listModify (fun _ => selected) lc nd.neighbors })
      nodeIdx s.nodes }
  let s2 := selected.foldl (fun t nIdx => addBackEdge t nodeIdx lc mMax nIdx) s1
  let ep' := match selected with
    | [] => ep
    | h :: _ => h
  (s2, ep')

/-- The linking phase of `insert` for a fresh node in a non-empty index:
greedy descent from `max_level` down to `level + 1`, then the per-layer
neighbor selection loop from `min(level, max_level)` down to 0, then entry
point promotion when `level > max_level`. -/
noncomputable def insertLink (s1 : HnswIndex) (nodeIdx level : ℕ) (query : Vec)
    (ep0 : ℕ) : HnswIndex :=
  let ep1 := (descRange (level + 1) s1.max_level).foldl
    (fun ep lc => searchLayerSingle s1 query ep lc) ep0
  let s2 := ((descRange 0 (min level s1.max_level)).foldl
    (insertLayerStep query nodeIdx) (s1, ep1)).1
  if s1.max_level < level then
    { s2 with max_level := level, entry_point := some nodeIdx }
  else s2

/-- Source `HnswIndex::insert`, with the `rand::random` level draw passed in
explicitly as `level`.  Existing identifiers (tombstoned or not: the lookup
ignores tombstone status) get their vector overwritten in place and nothing
else changes.  Fresh identifiers append a node, then either become the sole
entry point (empty index) or get linked layer by layer via `insertLink`. -/
noncomputable def HnswIndex.insert (s : HnswIndex) (level : ℕ) (id : String)
    (vector : Vec) : HnswIndex :=
  match s.id_to_idx.lookup id with
  | some existingIdx =>
    { s with nodes := listModify (fun nd => { nd with vector := vector }) existingIdx s.nodes }
  | none =>
    let nodeIdx := s.nodes.length
    let s1 : HnswIndex := { s with
      nodes := s.nodes ++ [⟨id, vector, level, List.replicate (level + 1) []⟩],
      id_to_idx := s.id_to_idx ++ [(id, nodeIdx)] }
    match s1.entry_point with
    | none => { s1 with entry_point := some nodeIdx, max_level := level }
    | some ep0 => insertLink s1 nodeIdx level vector ep0

/-- The per-layer degree bound `let m_max = if lc == 0 { M_MAX_0 } else { M_MAX }`
used by `insert`. -/
def degreeBound (lc : ℕ) : ℕ := if lc = 0 then M_MAX_0 else M_MAX

/-- Every node's neighbor list at every layer is within that layer's degree
bound (stated positionally to track in-place node updates). -/
def DegreeBounded (nodes : List Node) : Prop :=
  ∀ j < nodes.length, ∀ lc,
    (neighborsAt (nodes.getD j defaultNode) lc).length ≤ degreeBound lc

/-- Index states reachable by any sequence of `insert`/`delete` from `new`,
quantifying over every possible random level draw. -/
inductive Reachable : HnswIndex → Prop
  | new : Reachable HnswIndex.new
  | insert (s : HnswIndex) (level : ℕ) (id : String) (v : Vec) :
      Reachable s → Reachable (s.insert level id v)
  | delete (s : HnswIndex) (id : String) :
      Reachable s → Reachable (s.delete id).2

/-- Structural well-formedness of an index state: the id table and the node
array are mutually consistent, and every stored index (entry point, neighbor
entries, tombstones) is in range.  These are exactly the representation
invariants the Rust code maintains for states built from `HnswIndex::new`. -/
def WF (s : HnswIndex) : Prop :=
  (∀ i < s.nodes.length, s.id_to_idx.lookup (s.nodeAt i).id = some i)
  ∧ (∀ p ∈ s.id_to_idx, p.2 < s.nodes.length ∧ (s.nodeAt p.2).id = p.1)
  ∧ (∀ e, s.entry_point = some e → e < s.nodes.length)
  ∧ (∀ nd ∈ s.nodes, ∀ l ∈ nd.neighbors, ∀ j ∈ l, j < s.nodes.length)
  ∧ (∀ d ∈ s.deleted, d < s.nodes.length)

instance (s : HnswIndex) : Decidable (WF s) := by
  unfold WF
  infer_instance

/-! ### Hybrid fusion (`src/mcp/src/search/hybrid.rs`) -/

/-- Source `struct HybridConfig`; the f32 weights are exact rationals. -/
structure HybridConfig where
  bm25_weight : ℚ
  semantic_weight : ℚ
  rrf_k : ℕ

/-- Source `HybridConfig::default()`: the source's `0.3`/`0.7`/`60` literals,
modelled exactly (their f32 roundings differ from 3/10 and 7/10 by less than
2⁻²⁴, far below every score gap the claims depend on). -/
def HybridConfig.default : HybridConfig := ⟨3 / 10, 7 / 10, 60⟩

/-- Models `*scores.entry(path).or_insert(0.0) += rrf_score` on the insertion-ordered
association-list model of the `HashMap`. -/
def addScore : List (String × ℚ) → String → ℚ → List (String × ℚ)
  | [], path, sc => [(path, sc)]
  | (p, v) :: rest, path, sc =>
    if p = path then (p, v + sc) :: rest else (p, v) :: addScore rest path sc

/-- One `for (rank, (path, _score)) in list.enumerate()` accumulation pass of
`fuse_rrf`: rank is 0-based, the contribution is `w / (k + (rank + 1))`. -/
def rrfPass (w k : ℚ) : ℕ → List (String × ℚ) → List (String × ℚ) → List (String × ℚ)
  | _, acc, [] => acc
  | rank, acc, (path, _) :: rest =>
    rrfPass w k (rank + 1) (addScore acc path (w / (k + (rank + 1)))) rest

/-- Source `fuse_rrf`: accumulate both passes, then sort descending by fused score
(`sort_by(|a, b| b.1.partial_cmp(&a.1))`, a stable sort, modelled by the
stable `insertionSort`). -/
def fuseRrf (semantic bm25 : List (String × ℚ)) (config : HybridConfig) :
    List (String × ℚ) :=
  let k : ℚ := config.rrf_k
  let scores := rrfPass config.bm25_weight k 0
    (rrfPass config.semantic_weight k 0 [] semantic) bm25
  scores.insertionSort fun a b => b.2 ≤ a.2

instance : IsTotal (String × ℚ) (fun a b => b.2 ≤ a.2) :=
  ⟨fun a b => le_total b.2 a.2⟩

instance : IsTrans (String × ℚ) (fun a b => b.2 ≤ a.2) :=
  ⟨fun _ _ _ h1 h2 => le_trans h2 h1⟩

/-- The spec's own description of an identifier's RRF contribution from one
list: `weight / (k + r)` where `r` is the identifier's 1-based rank in the
list, and 0 when the identifier is absent.  Stated from the spec's words for
comparison against `fuseRrf`. -/
def specRrfContribution (weight : ℚ) (k : ℚ) (l : List (String × ℚ))
    (id : String) : ℚ :=
  match l.findIdx? (fun p => p.1 == id) with
  | some i => weight / (k + (i + 1))
  | none => 0

/-! ### Deterministic embedder (`src/plugin/wasm/src/lib.rs`) -/

/-- Source `const EMBEDDING_DIM: usize = 384`. -/
def EMBEDDING_DIM : ℕ := 384

/-- Source `const NUM_MODULI: usize = EMBEDDING_DIM / 2`. -/
def NUM_MODULI : ℕ := EMBEDDING_DIM / 2

/-- Source `static COPRIME_MODULI: &[u64]` (all 194 entries of the source list). -/
def COPRIME_MODULI : List ℕ :=
  [2, 3, 5, 7, 11, 13, 17, 19, 23, 29, 31, 37, 41, 43, 47, 53, 59, 61, 67,
   71, 73, 79, 83, 89, 97, 101, 103, 107, 109, 113, 127, 131, 137, 139, 149,
   151, 157, 163, 167, 173, 179, 181, 191, 193, 197, 199, 211, 223, 227, 229,
   233, 239, 241, 251, 257, 263, 269, 271, 277, 281, 283, 293, 307, 311, 313,
   317, 331, 337, 347, 349, 353, 359, 367, 373, 379, 383, 389, 397, 401, 409,
   419, 421, 431, 433, 439, 443, 449, 457, 461, 463, 467, 479, 487, 491, 499,
   503, 509, 521, 523, 541, 547, 557, 563, 569, 571, 577, 587, 593, 599, 601,
   607, 613, 617, 619, 631, 641, 643, 647, 653, 659, 661, 673, 677, 683, 691,
   701, 709, 719, 727, 733, 739, 743, 751, 757, 761, 769, 773, 787, 797, 809,
   811, 821, 823, 827, 829, 839, 853, 857, 859, 863, 877, 881, 883, 887, 907,
   911, 919, 929, 937, 941, 947, 953, 967, 971, 977, 983, 991, 997, 1009,
   1013, 1019, 1021, 1031, 1033, 1039, 1049, 1051, 1061, 1063, 1069, 1087,
   1091, 1093, 1097, 1103, 1109, 1117, 1123, 1129, 1151, 1153, 1163, 1171,
   1181]

/-- Rust's `char::is_ascii_punctuation`:
`'!'..='/' | ':'..='@' | '['..='`' | '{'..='~'`. -/
def isAsciiPunctuation (c : Char) : Bool :=
  (0x21 ≤ c.toNat && c.toNat ≤ 0x2F) || (0x3A ≤ c.toNat && c.toNat ≤ 0x40) ||
  (0x5B ≤ c.toNat && c.toNat ≤ 0x60) || (0x7B ≤ c.toNat && c.toNat ≤ 0x7E)

/-- Rust's `str::split(pred)` on the character sequence: pieces between
separator characters, keeping empty pieces (so the empty string yields one
empty piece, and consecutive separators yield empty pieces between them). -/
def splitChars (p : Char → Bool) : List Char → List (List Char)
  | [] => [[]]
  | c :: t =>
    if p c then [] :: splitChars p t
    else
      match splitChars p t with
      | [] => [[c]]
      | h :: r => (c :: h) :: r

/-- Source `tokenize`: split on whitespace or ASCII punctuation, drop empty pieces,
lowercase.  A token is its character sequence (a Rust `String` is its
sequence of chars); `Char.toLower` lowercases ASCII exactly like Rust, and
the claims do not depend on non-ASCII case or whitespace tables. -/
def tokenize (text : String) : List (List Char) :=
  ((splitChars (fun c => c.isWhitespace || isAsciiPunctuation c)
    text.toList).filter fun piece => !piece.isEmpty).map fun piece =>
    piece.map Char.toLower

/-- Source `token_to_integer`: fold the first 64 chars with wrapping u64 arithmetic
`n = n * 65536 + char`; wrapping is exact `% 2⁶⁴`. -/
def tokenToInteger (token : List Char) : ℕ :=
  (token.take 64).foldl (fun n c => (n * 65536 + c.toNat) % 2 ^ 64) 0

/-- Source `embed_token`: for each of the first `NUM_MODULI` moduli, push
`sin θ` then `cos θ` for `θ = 2π (n mod m) / m`. -/
noncomputable def embedToken (token : List Char) : List ℝ :=
  ((COPRIME_MODULI.take NUM_MODULI).map fun m =>
    let r := tokenToInteger token % m
    let theta : ℝ := 2 * Real.pi * (r : ℝ) / (m : ℝ)
    [Real.sin theta, Real.cos theta]).flatten

/-- The `sum_embedding` accumulation loop of `embed_text`: start from the
384-component zero vector and add each token embedding componentwise. -/
noncomputable def sumEmbedding (tokens : List (List Char)) : List ℝ :=
  tokens.foldl (fun acc t => List.zipWith (· + ·) acc (embedToken t))
    (List.replicate EMBEDDING_DIM 0)

/-- The arithmetic mean of the token vectors (`*val /= count`). -/
noncomputable def meanEmbedding (tokens : List (List Char)) : List ℝ :=
  (sumEmbedding tokens).map fun x => x / (tokens.length : ℝ)

/-- Euclidean norm of a vector of reals. -/
noncomputable def normL2 (v : List ℝ) : ℝ := Real.sqrt ((v.map fun x => x * x).sum)

/-- Source `embed_text`: zero vector when tokenization is empty, otherwise the
L2-normalized token mean, returned unnormalized when its norm is not
positive.  (The final f64→f32 narrowing casts are dropped: this is the
exact-arithmetic model.) -/
noncomputable def embedText (text : String) : List ℝ :=
  let tokens := tokenize text
  if tokens.isEmpty then List.replicate EMBEDDING_DIM 0
  else
    let mean := meanEmbedding tokens
    let norm := normL2 mean
    if 0 < norm then mean.map fun x => x / norm else mean

/-! ### Plugin index loading (`src/mcp/src/search/plugin_index.rs`) -/

/-- Source `PLUGIN_INDEX_VERSION: u32 = 1`. -/
def PLUGIN_INDEX_VERSION : ℕ := 1

/-- Source `struct IndexMeta` (the meta.json header). -/
structure IndexMeta where
  embedding_mode : String
  dimension : ℕ
  note_count : ℕ
  index_size : ℕ
  exported_at : ℕ
  version : ℕ

/-- Source `struct NoteRecord` (one notes.json entry, fields already normalized to
strings by `deserialize_fields`). -/
structure NoteRecord where
  path : String
  gist : String
  mtime : ℕ
  indexed : Bool
  fields : List (String × String)
  tags : Option (List String)

/-- The distinct failure modes of `PluginSearchEngine::load`, one constructor
per `bail!`/`?` exit of the source. -/
inductive LoadError where
  | indexNotFound
  | metaUnreadable
  | versionMismatch (expected found : ℕ)
  | notesUnreadable
  | hnswUnreadable
  | embedderCreation
  | dimensionMismatch (embedderDim indexDim : ℕ)
deriving DecidableEq, Repr

/-- The on-disk artifact as `load` observes it: whether all three files
exist (`reader.exists()`), and the parse result of each file (`none` models a
read or parse failure). -/
structure PluginArtifact where
  filesExist : Bool
  meta : Option IndexMeta
  notes : Option (List NoteRecord)
  hnsw : Option HnswIndex

/-- Source `struct PluginSearchEngine` (the embedder handle is represented by the
dimension check having succeeded). -/
structure PluginSearchEngine where
  hnsw : HnswIndex
  notes : List (String × NoteRecord)
  meta : IndexMeta

/-- Source `PluginSearchEngine::load`: the exact decision pipeline of the source —
existence check, meta parse, version gate, notes parse, hnsw parse, embedder
creation, dimension gate.  `createEmbedderDim` abstracts
`create_embedder(&search_config)` followed by `.dimension()`: given the
declared embedding mode it yields the created embedder's dimension, or `none`
when creation fails (e.g. a missing model artifact). -/
def PluginSearchEngine.load (createEmbedderDim : String → Option ℕ)
    (art : PluginArtifact) : Except LoadError PluginSearchEngine :=
  if !art.filesExist then .error .indexNotFound
  else
    match art.meta with
    | none => .error .metaUnreadable
    | some meta =>
      if meta.version ≠ PLUGIN_INDEX_VERSION then
        .error (.versionMismatch PLUGIN_INDEX_VERSION meta.version)
      else
        match art.notes with
        | none => .error .notesUnreadable
        | some notesVec =>
          match art.hnsw with
          | none => .error .hnswUnreadable
          | some hnsw =>
            match createEmbedderDim meta.embedding_mode with
            | none => .error .embedderCreation
            | some dim =>
              if dim ≠ meta.dimension then
                .error (.dimensionMismatch dim meta.dimension)
              else .ok ⟨hnsw, notesVec.map fun n => (n.path, n), meta⟩

/-! ## Helper lemmas -/

theorem listModify_length (f : α → α) (i : ℕ) (l : List α) :
    (listModify f i l).length = l.length := by
  induction l generalizing i with
  | nil => simp [listModify]
  | cons x t ih =>
    cases i with
    | zero => simp [listModify]
    | succ j => simp [listModify, ih]

theorem getD_listModify_self (f : α → α) (i : ℕ) (l : List α) (d : α)
    (h : i < l.length) : (listModify f i l).getD i d = f (l.getD i d) := by
  induction l generalizing i with
  | nil => simp at h
  | cons x t ih =>
    cases i with
    | zero => simp [listModify]
    | succ j =>
      simp only [listModify, List.getD_cons_succ]
      exact ih j (by simpa using h)

theorem getD_listModify_ne (f : α → α) (i j : ℕ) (l : List α) (d : α)
    (h : j ≠ i) : (listModify f i l).getD j d = l.getD j d := by
  induction l generalizing i j with
  | nil => simp [listModify]
  | cons x t ih =>
    cases i with
    | zero =>
      cases j with
      | zero => exact absurd rfl h
      | succ j' => simp [listModify]
    | succ i' =>
      cases j with
      | zero => simp [listModify]
      | succ j' =>
        simp only [listModify, List.getD_cons_succ]
        exact ih i' j' (fun hh => h (by simp [hh]))

theorem mem_listModify (f : α → α) (i : ℕ) (l : List α) (x : α)
    (hx : x ∈ listModify f i l) : x ∈ l ∨ ∃ y ∈ l, x = f y := by
  induction l generalizing i with
  | nil => simp [listModify] at hx
  | cons a t ih =>
    cases i with
    | zero =>
      simp only [listModify, List.mem_cons] at hx
      rcases hx with h | h
      · exact Or.inr ⟨a, List.mem_cons_self a t, h⟩
      · exact Or.inl (List.mem_cons_of_mem a h)
    | succ j =>
      simp only [listModify, List.mem_cons] at hx
      rcases hx with h | h
      · exact Or.inl (h ▸ List.mem_cons_self a t)
      · rcases ih j h with h' | ⟨y, hy, hxy⟩
        · exact Or.inl (List.mem_cons_of_mem a h')
        · exact Or.inr ⟨y, List.mem_cons_of_mem a hy, hxy⟩

theorem foldl_preserve {α β : Type _} {P : β → Prop} (f : β → α → β) (l : List α)
    (init : β) (h0 : P init) (hstep : ∀ b, P b → ∀ a ∈ l, P (f b a)) :
    P (l.foldl f init) := by
  induction l generalizing init with
  | nil => simpa using h0
  | cons a t ih =>
    simp only [List.foldl_cons]
    exact ih (f init a) (hstep init h0 a (List.mem_cons_self a t))
      (fun b hb x hx => hstep b hb x (List.mem_cons_of_mem a hx))

theorem popMinC_mem {l : List Cand} {c : Cand} {rest : List Cand}
    (h : popMinC l = some (c, rest)) : c ∈ l ∧ ∀ x ∈ rest, x ∈ l := by
  induction l generalizing c rest with
  | nil => simp [popMinC] at h
  | cons a t ih =>
    rcases ht : popMinC t with _ | ⟨m, rest'⟩
    · simp only [popMinC, ht, Option.some.injEq, Prod.mk.injEq] at h
      exact ⟨h.1 ▸ List.mem_cons_self a t, by simp [← h.2]⟩
    · simp only [popMinC, ht] at h
      by_cases hc : a.distance ≤ m.distance
      · rw [if_pos hc] at h
        simp only [Option.some.injEq, Prod.mk.injEq] at h
        refine ⟨h.1 ▸ List.mem_cons_self a t, fun x hx => ?_⟩
        rw [← h.2] at hx
        exact List.mem_cons_of_mem a hx
      · rw [if_neg hc] at h
        simp only [Option.some.injEq, Prod.mk.injEq] at h
        have hmem := ih ht
        refine ⟨h.1 ▸ List.mem_cons_of_mem a hmem.1, fun x hx => ?_⟩
        rw [← h.2] at hx
        rcases List.mem_cons.mp hx with hx | hx
        · exact hx ▸ List.mem_cons_self a t
        · exact List.mem_cons_of_mem a (hmem.2 x hx)

theorem popMaxC_mem {l : List Cand} {c : Cand} {rest : List Cand}
    (h : popMaxC l = some (c, rest)) : c ∈ l ∧ ∀ x ∈ rest, x ∈ l := by
  induction l generalizing c rest with
  | nil => simp [popMaxC] at h
  | cons a t ih =>
    rcases ht : popMaxC t with _ | ⟨m, rest'⟩
    · simp only [popMaxC, ht, Option.some.injEq, Prod.mk.injEq] at h
      exact ⟨h.1 ▸ List.mem_cons_self a t, by simp [← h.2]⟩
    · simp only [popMaxC, ht] at h
      by_cases hc : m.distance ≤ a.distance
      · rw [if_pos hc] at h
        simp only [Option.some.injEq, Prod.mk.injEq] at h
        refine ⟨h.1 ▸ List.mem_cons_self a t, fun x hx => ?_⟩
        rw [← h.2] at hx
        exact List.mem_cons_of_mem a hx
      · rw [if_neg hc] at h
        simp only [Option.some.injEq, Prod.mk.injEq] at h
        have hmem := ih ht
        refine ⟨h.1 ▸ List.mem_cons_of_mem a hmem.1, fun x hx => ?_⟩
        rw [← h.2] at hx
        rcases List.mem_cons.mp hx with hx | hx
        · exact hx ▸ List.mem_cons_self a t
        · exact List.mem_cons_of_mem a (hmem.2 x hx)

theorem mem_sortCandAsc {l : List Cand} {c : Cand} (h : c ∈ sortCandAsc l) :
    c ∈ l :=
  (List.perm_insertionSort _ l).subset h

theorem selectNeighborsFromCandidates_length (candidates : List Cand) (m : ℕ) :
    (selectNeighborsFromCandidates candidates m).length ≤ m := by
  simp only [selectNeighborsFromCandidates, List.length_map]
  exact (List.length_take_le m _)

theorem addBackEdge_fields (s : HnswIndex) (nodeIdx lc mMax neighborIdx : ℕ) :
    (addBackEdge s nodeIdx lc mMax neighborIdx).entry_point = s.entry_point
    ∧ (addBackEdge s nodeIdx lc mMax neighborIdx).max_level = s.max_level
    ∧ (addBackEdge s nodeIdx lc mMax neighborIdx).id_to_idx = s.id_to_idx
    ∧ (addBackEdge s nodeIdx lc mMax neighborIdx).deleted = s.deleted
    ∧ (addBackEdge s nodeIdx lc mMax neighborIdx).nodes.length = s.nodes.length := by
  unfold addBackEdge
  by_cases h1 : neighborIdx ∈ s.deleted
  · simp [h1]
  · rw [if_neg h1]
    by_cases h2 : lc ≤ (s.nodeAt neighborIdx).level
    · rw [if_pos h2]
      dsimp only
      split_ifs <;> simp [listModify_length]
    · rw [if_neg h2]
      simp

theorem insertLayerStep_fields (query : Vec) (nodeIdx : ℕ) (acc : HnswIndex × ℕ)
    (lc : ℕ) :
    (insertLayerStep query nodeIdx acc lc).1.entry_point = acc.1.entry_point
    ∧ (insertLayerStep query nodeIdx acc lc).1.max_level = acc.1.max_level
    ∧ (insertLayerStep query nodeIdx acc lc).1.id_to_idx = acc.1.id_to_idx
    ∧ (insertLayerStep query nodeIdx acc lc).1.deleted = acc.1.deleted
    ∧ (insertLayerStep query nodeIdx acc lc).1.nodes.length = acc.1.nodes.length := by
  unfold insertLayerStep
  refine foldl_preserve (P := fun t : HnswIndex =>
    t.entry_point = acc.1.entry_point ∧ t.max_level = acc.1.max_level
    ∧ t.id_to_idx = acc.1.id_to_idx ∧ t.deleted = acc.1.deleted
    ∧ t.nodes.length = acc.1.nodes.length) _ _ _ ?_ ?_
  · simp [listModify_length]
  · intro b hb a _
    obtain ⟨h1, h2, h3, h4, h5⟩ := addBackEdge_fields b nodeIdx lc
      (if lc = 0 then M_MAX_0 else M_MAX) a
    exact ⟨h1.trans hb.1, h2.trans hb.2.1, h3.trans hb.2.2.1,
      h4.trans hb.2.2.2.1, h5.trans hb.2.2.2.2⟩

theorem insertLayersFold_fields (query : Vec) (nodeIdx : ℕ) (layers : List ℕ)
    (init : HnswIndex × ℕ) :
    (layers.foldl (insertLayerStep query nodeIdx) init).1.entry_point
        = init.1.entry_point
    ∧ (layers.foldl (insertLayerStep query nodeIdx) init).1.max_level
        = init.1.max_level
    ∧ (layers.foldl (insertLayerStep query nodeIdx) init).1.id_to_idx
        = init.1.id_to_idx
    ∧ (layers.foldl (insertLayerStep query nodeIdx) init).1.deleted
        = init.1.deleted
    ∧ (layers.foldl (insertLayerStep query nodeIdx) init).1.nodes.length
        = init.1.nodes.length := by
  refine foldl_preserve (P := fun t : HnswIndex × ℕ =>
    t.1.entry_point = init.1.entry_point ∧ t.1.max_level = init.1.max_level
    ∧ t.1.id_to_idx = init.1.id_to_idx ∧ t.1.deleted = init.1.deleted
    ∧ t.1.nodes.length = init.1.nodes.length) _ _ _ ?_ ?_
  · exact ⟨rfl, rfl, rfl, rfl, rfl⟩
  · intro b hb a _
    obtain ⟨h1, h2, h3, h4, h5⟩ := insertLayerStep_fields query nodeIdx b a
    exact ⟨h1.trans hb.1, h2.trans hb.2.1, h3.trans hb.2.2.1,
      h4.trans hb.2.2.2.1, h5.trans hb.2.2.2.2⟩

theorem insertLink_fields (s1 : HnswIndex) (nodeIdx level : ℕ) (query : Vec)
    (ep0 : ℕ) :
    (insertLink s1 nodeIdx level query ep0).id_to_idx = s1.id_to_idx
    ∧ (insertLink s1 nodeIdx level query ep0).deleted = s1.deleted
    ∧ (insertLink s1 nodeIdx level query ep0).nodes.length = s1.nodes.length
    ∧ (¬ s1.max_level < level →
        (insertLink s1 nodeIdx level query ep0).entry_point = s1.entry_point
        ∧ (insertLink s1 nodeIdx level query ep0).max_level = s1.max_level) := by
  unfold insertLink
  obtain ⟨h1, h2, h3, h4, h5⟩ := insertLayersFold_fields query nodeIdx
    (descRange 0 (min level s1.max_level))
    (s1, (descRange (level + 1) s1.max_level).foldl
      (fun ep lc => searchLayerSingle s1 query ep lc) ep0)
  split_ifs with hcond
  · exact ⟨h3, h4, h5, fun hc => absurd hcond hc⟩
  · exact ⟨h3, h4, h5, fun _ => ⟨h1, h2⟩⟩

/-- Lemma: `insert` never touches the tombstone set. -/
theorem insert_deleted (s : HnswIndex) (level : ℕ) (id : String) (v : Vec) :
    (s.insert level id v).deleted = s.deleted := by
  unfold HnswIndex.insert
  rcases h : s.id_to_idx.lookup id with _ | idx
  · cases he : s.entry_point with
    | none => simp [he]
    | some ep0 =>
      simp only [he]
      exact (insertLink_fields _ _ _ _ _).2.1
  · simp

/-- Lemma: `insert` of a fresh identifier appends exactly one node. -/
theorem insert_fresh_length (s : HnswIndex) (level : ℕ) (id : String) (v : Vec)
    (h : s.id_to_idx.lookup id = none) :
    (s.insert level id v).nodes.length = s.nodes.length + 1 := by
  unfold HnswIndex.insert
  rw [h]
  cases he : s.entry_point with
  | none => simp [he]
  | some ep0 =>
    simp only [he]
    rw [(insertLink_fields _ _ _ _ _).2.2.1]
    simp

/-- Lemma: `insert` of a fresh identifier into a non-empty index whose level does
not exceed `max_level` leaves the entry point untouched. -/
theorem insert_entry_of_level_le (s : HnswIndex) (level : ℕ) (id : String)
    (v : Vec) (h : s.id_to_idx.lookup id = none) (he : s.entry_point ≠ none)
    (hl : level ≤ s.max_level) :
    (s.insert level id v).entry_point = s.entry_point := by
  unfold HnswIndex.insert
  rw [h]
  cases hep : s.entry_point with
  | none => exact absurd hep he
  | some ep0 =>
    simp only [hep]
    have hf := ((insertLink_fields
      { s with
        nodes := s.nodes ++ [⟨id, v, level, List.replicate (level + 1) []⟩],
        entry_point := some ep0,
        id_to_idx := s.id_to_idx ++ [(id, s.nodes.length)] }
      s.nodes.length level v ep0).2.2.2 (Nat.not_lt.mpr hl)).1
    rw [hf]

/-- Lemma: `delete` never touches the entry point (nor the nodes, ids, or levels). -/
theorem delete_fields (s : HnswIndex) (id : String) :
    (s.delete id).2.entry_point = s.entry_point
    ∧ (s.delete id).2.max_level = s.max_level
    ∧ (s.delete id).2.nodes = s.nodes
    ∧ (s.delete id).2.id_to_idx = s.id_to_idx := by
  unfold HnswIndex.delete
  rcases s.id_to_idx.lookup id with _ | idx <;> simp

/-! ## Claim theorems -/

/-- C10: `delete` is idempotent and total — it returns `true` exactly when
the identifier is in the id lookup table regardless of tombstone status; a
repeated delete of an already-tombstoned identifier returns `true` but
changes nothing at all, and deleting an identifier that is not in the table
returns `false` and changes nothing. -/
theorem C10_delete_idempotent_total (s : HnswIndex) (id : String) :
    ((s.delete id).1 = true ↔ s.id_to_idx.lookup id ≠ none)
    ∧ (∀ idx, s.id_to_idx.lookup id = some idx → idx ∈ s.deleted →
        s.delete id = (true, s))
    ∧ (s.id_to_idx.lookup id = none → s.delete id = (false, s)) := by
  refine ⟨?_, ?_, ?_⟩
  · unfold HnswIndex.delete
    rcases h : s.id_to_idx.lookup id with _ | idx <;> simp [h]
  · intro idx hl hd
    unfold HnswIndex.delete
    rw [hl]
    have : insert idx s.deleted = s.deleted := Finset.insert_eq_self.mpr hd
    simp [this]
  · intro h
    unfold HnswIndex.delete
    rw [h]

theorem C10_witness :
    (⟨[⟨"a", [1], 0, [[]]⟩], some 0, 0, [("a", 0)], {0}⟩ : HnswIndex).delete "a"
      = (true, ⟨[⟨"a", [1], 0, [[]]⟩], some 0, 0, [("a", 0)], {0}⟩) :=
  (C10_delete_idempotent_total _ "a").2.1 0 (by decide) (by decide)

/-- C8: the version gate — for every artifact whose meta header parses with a
version different from `PLUGIN_INDEX_VERSION = 1`, `load` fails with the
distinct version-mismatch error, for every possible content of the notes
file, the binary HNSW blob, and the embedder factory: the check fires before
those are even looked at, so no engine is ever produced. -/
theorem C8_version_gate (createEmbedderDim : String → Option ℕ)
    (meta : IndexMeta) (notes : Option (List NoteRecord))
    (hnsw : Option HnswIndex) (hv : meta.version ≠ PLUGIN_INDEX_VERSION) :
    PluginSearchEngine.load createEmbedderDim ⟨true, some meta, notes, hnsw⟩
      = .error (.versionMismatch PLUGIN_INDEX_VERSION meta.version) := by
  unfold PluginSearchEngine.load
  simp [hv]

theorem C8_witness :
    PluginSearchEngine.load (fun _ => some 384)
      ⟨true, some ⟨"hash", 384, 0, 0, 0, 2⟩, none, none⟩
      = .error (.versionMismatch PLUGIN_INDEX_VERSION 2) :=
  C8_version_gate (fun _ => some 384) ⟨"hash", 384, 0, 0, 0, 2⟩ none none
    (by decide)

/-- C1 counterexample: insert `"a"`, tombstone it, then re-insert it — the
claim says `contains "a"` is true immediately afterward, but the code never
removes the slot from the deleted set, so `contains` still returns false. -/
theorem C1_counterexample :
    (((HnswIndex.new.insert 0 "a" [1]).delete "a").2.insert 0 "a" [2]).contains "a"
      = false := by
  decide

/-- C1 (amended): re-inserting a tombstoned identifier overwrites its vector
in place and keeps its old neighbor lists verbatim, but does **not**
un-tombstone it: the deleted set is unchanged and `contains` remains false
immediately afterward. -/
theorem C1_reinsert_tombstoned (s : HnswIndex) (level : ℕ) (id : String)
    (v : Vec) (idx : ℕ) (hl : s.id_to_idx.lookup id = some idx)
    (hr : idx < s.nodes.length) (hd : idx ∈ s.deleted) :
    ((s.insert level id v).nodeAt idx).vector = v
    ∧ ((s.insert level id v).nodeAt idx).neighbors = (s.nodeAt idx).neighbors
    ∧ (s.insert level id v).deleted = s.deleted
    ∧ (s.insert level id v).contains id = false := by
  have hins : s.insert level id v =
      { s with nodes := listModify (fun nd => { nd with vector := v }) idx s.nodes } := by
    unfold HnswIndex.insert
    rw [hl]
  refine ⟨?_, ?_, ?_, ?_⟩
  · rw [hins]
    show ((listModify (fun nd => { nd with vector := v }) idx s.nodes).getD idx
      defaultNode).vector = v
    rw [getD_listModify_self _ _ _ _ hr]
  · rw [hins]
    show ((listModify (fun nd => { nd with vector := v }) idx s.nodes).getD idx
      defaultNode).neighbors = (s.nodes.getD idx defaultNode).neighbors
    rw [getD_listModify_self _ _ _ _ hr]
  · rw [hins]
  · simp only [hins, HnswIndex.contains, hl]
    simp [hd]

theorem C1_witness :
    ((⟨[⟨"a", [1], 0, [[]]⟩], some 0, 0, [("a", 0)], {0}⟩ : HnswIndex).insert
        7 "a" [2]).contains "a" = false :=
  (C1_reinsert_tombstoned ⟨[⟨"a", [1], 0, [[]]⟩], some 0, 0, [("a", 0)], {0}⟩
    7 "a" [2] 0 (by decide) (by decide) (by decide)).2.2.2

/-- C2 counterexample: insert `"a"` at level 0, delete it, then insert `"b"`
at level 0.  The resulting state is reachable, non-empty (node `"b"` is
live), yet the entry point is still slot 0, which is tombstoned: delete never
re-points the entry, and the insertion of `"b"` promotes nothing because its
level does not exceed `max_level`. -/
theorem C2_counterexample :
    Reachable (((HnswIndex.new.insert 0 "a" [1]).delete "a").2.insert 0 "b" [1])
    ∧ 0 < (((HnswIndex.new.insert 0 "a" [1]).delete "a").2.insert 0 "b" [1]).len
    ∧ (((HnswIndex.new.insert 0 "a" [1]).delete "a").2.insert 0 "b" [1]).entry_point
        = some 0
    ∧ 0 ∈ (((HnswIndex.new.insert 0 "a" [1]).delete "a").2.insert 0 "b" [1]).deleted := by
  have e1 : ((HnswIndex.new.insert 0 "a" [1]).delete "a").2
      = (⟨[⟨"a", [1], 0, [[]]⟩], some 0, 0, [("a", 0)], {0}⟩ : HnswIndex) := rfl
  refine ⟨?_, ?_, ?_, ?_⟩
  · exact Reachable.insert _ 0 "b" [1]
      (Reachable.delete _ "a" (Reachable.insert _ 0 "a" [1] Reachable.new))
  · rw [e1]
    unfold HnswIndex.len
    rw [insert_fresh_length _ _ _ _ (by decide), insert_deleted]
    decide
  · rw [e1]
    rw [insert_entry_of_level_le _ _ _ _ (by decide) (by decide) (le_refl 0)]
  · rw [e1, insert_deleted]
    decide

/-- C2 (amended): the entry point is not kept live.  `delete` never changes
`entry_point` (so deleting the entry point leaves a tombstoned entry point
behind even when other live nodes remain), and a subsequent insertion of a
fresh identifier promotes the new node to entry point only when its drawn
level exceeds `max_level` — otherwise the tombstoned entry point stays. -/
theorem C2_entry_point_behavior :
    (∀ (s : HnswIndex) (id : String), (s.delete id).2.entry_point = s.entry_point)
    ∧ (∀ (s : HnswIndex) (level : ℕ) (id : String) (v : Vec),
        s.id_to_idx.lookup id = none → s.entry_point ≠ none →
        level ≤ s.max_level →
        (s.insert level id v).entry_point = s.entry_point) :=
  ⟨fun s id => (delete_fields s id).1, insert_entry_of_level_le⟩

theorem C2_witness :
    ((⟨[⟨"a", [1], 0, [[]]⟩], some 0, 0, [("a", 0)], {0}⟩ : HnswIndex).insert
        0 "b" [1]).entry_point = some 0 :=
  C2_entry_point_behavior.2 ⟨[⟨"a", [1], 0, [[]]⟩], some 0, 0, [("a", 0)], {0}⟩
    0 "b" [1] (by decide) (by decide) (le_refl 0)

/-! ## Degree-bound invariant (C5) -/

theorem listModify_of_le (f : α → α) (i : ℕ) (l : List α) (h : l.length ≤ i) :
    listModify f i l = l := by
  induction l generalizing i with
  | nil => simp [listModify]
  | cons x t ih =>
    cases i with
    | zero => simp at h
    | succ j =>
      simp only [listModify, List.cons.injEq, true_and]
      exact ih j (by simpa using h)

theorem mem_listModify_strong (f : α → α) (i : ℕ) (l : List α) (d : α) (x : α)
    (hx : x ∈ listModify f i l) :
    x ∈ l ∨ (i < l.length ∧ x = f (l.getD i d)) := by
  induction l generalizing i with
  | nil => simp [listModify] at hx
  | cons a t ih =>
    cases i with
    | zero =>
      simp only [listModify, List.mem_cons] at hx
      rcases hx with h | h
      · exact Or.inr ⟨by simp, by simpa using h⟩
      · exact Or.inl (List.mem_cons_of_mem a h)
    | succ j =>
      simp only [listModify, List.mem_cons] at hx
      rcases hx with h | h
      · exact Or.inl (h ▸ List.mem_cons_self a t)
      · rcases ih j h with h' | ⟨hlt, hxe⟩
        · exact Or.inl (List.mem_cons_of_mem a h')
        · exact Or.inr ⟨by simpa using hlt, by simpa using hxe⟩

theorem getD_replicate_nil (n i : ℕ) :
    (List.replicate n ([] : List ℕ)).getD i [] = [] := by
  rcases lt_or_le i n with h | h
  · rw [List.getD_eq_getElem _ _ (by simpa using h)]
    simp
  · rw [List.getD_eq_default]
    simpa using h

/-- Writing a list of length at most `degreeBound lc` into one node's
neighbor slot `lc` preserves the degree bounds. -/
theorem degreeBounded_setNeighbors (nodes : List Node) (i lc : ℕ)
    (sel : List ℕ) (hsel : sel.length ≤ degreeBound lc)
    (h : DegreeBounded nodes) :
    DegreeBounded (listModify
      (fun nd => { nd with neighbors := listModify (fun _ => sel) lc nd.neighbors })
      i nodes) := by
  intro j hj lc'
  rw [listModify_length] at hj
  by_cases hji : j = i
  · subst hji
    rw [getD_listModify_self _ _ _ _ hj]
    show ((listModify (fun _ => sel) lc (nodes.getD j defaultNode).neighbors).getD
      lc' []).length ≤ _
    by_cases hrange : lc < (nodes.getD j defaultNode).neighbors.length
    · by_cases hlc : lc' = lc
      · subst hlc
        rw [getD_listModify_self _ _ _ _ hrange]
        exact hsel
      · rw [getD_listModify_ne _ _ _ _ _ hlc]
        exact h j hj lc'
    · rw [listModify_of_le _ _ _ (by omega)]
      exact h j hj lc'
  · rw [getD_listModify_ne _ _ _ _ _ hji]
    exact h j hj lc'

/-- Lemma: `addBackEdge` preserves the degree bounds when called with the matching
`m_max` for its layer: either the push stays within the bound by the guard,
or the pruning pass truncates the slot back to the bound. -/
theorem degreeBounded_addBackEdge (s : HnswIndex) (nodeIdx lc neighborIdx : ℕ)
    (h : DegreeBounded s.nodes) :
    DegreeBounded (addBackEdge s nodeIdx lc (degreeBound lc) neighborIdx).nodes := by
  unfold addBackEdge
  by_cases h1 : neighborIdx ∈ s.deleted
  · simpa [h1] using h
  · rw [if_neg h1]
    by_cases h2 : lc ≤ (s.nodeAt neighborIdx).level
    · rw [if_pos h2]
      dsimp only
      split_ifs with h3
      · -- overflow: the touched slot becomes the pruned list (≤ m_max);
        -- every other slot keeps its old, bounded, value
        intro j hj lc'
        rw [listModify_length, listModify_length] at hj
        by_cases hji : j = neighborIdx
        · subst hji
          rw [getD_listModify_self _ _ _ _ (by rwa [listModify_length]),
            getD_listModify_self _ _ _ _ hj]
          show ((listModify _ lc (listModify (fun l => l ++ [nodeIdx]) lc
            (s.nodes.getD j defaultNode).neighbors)).getD lc' []).length ≤ _
          by_cases hrange : lc < (s.nodes.getD j defaultNode).neighbors.length
          · by_cases hlc : lc' = lc
            · subst hlc
              rw [getD_listModify_self _ _ _ _ (by rwa [listModify_length])]
              exact selectNeighborsFromCandidates_length _ _
            · rw [getD_listModify_ne _ _ _ _ _ hlc,
                getD_listModify_ne _ _ _ _ _ hlc]
              exact h j hj lc'
          · rw [listModify_of_le _ _ _ (by rw [listModify_length]; omega),
              listModify_of_le _ _ _ (by omega)]
            exact h j hj lc'
        · rw [getD_listModify_ne _ _ _ _ _ hji, getD_listModify_ne _ _ _ _ _ hji]
          exact h j hj lc'
      · -- no overflow: the pushed list's length is ≤ m_max by the guard
        intro j hj lc'
        rw [listModify_length] at hj
        by_cases hji : j = neighborIdx
        · subst hji
          rw [getD_listModify_self _ _ _ _ hj]
          show ((listModify (fun l => l ++ [nodeIdx]) lc
            (s.nodes.getD j defaultNode).neighbors).getD lc' []).length ≤ _
          by_cases hlc : lc' = lc
          · subst hlc
            -- the guard talks about exactly this slot of the pushed node
            simp only [not_lt, HnswIndex.nodeAt, neighborsAt] at h3
            rw [getD_listModify_self _ _ _ _ hj] at h3
            exact h3
          · rw [getD_listModify_ne _ _ _ _ _ hlc]
            exact h j hj lc'
        · rw [getD_listModify_ne _ _ _ _ _ hji]
          exact h j hj lc'
    · rw [if_neg h2]
      exact h

theorem getD_append_left (l l' : List α) (j : ℕ) (d : α) (h : j < l.length) :
    (l ++ l').getD j d = l.getD j d := by
  rw [List.getD_eq_getElem _ _ (by simp; omega), List.getD_eq_getElem _ _ h]
  exact List.getElem_append_left h

theorem getD_snoc_last (l : List α) (x : α) (d : α) :
    (l ++ [x]).getD l.length d = x := by
  rw [List.getD_eq_getElem _ _ (by simp)]
  simp

theorem degreeBounded_insertLayerStep (query : Vec) (nodeIdx : ℕ)
    (acc : HnswIndex × ℕ) (lc : ℕ) (h : DegreeBounded acc.1.nodes) :
    DegreeBounded (insertLayerStep query nodeIdx acc lc).1.nodes := by
  unfold insertLayerStep
  dsimp only
  refine foldl_preserve (P := fun t : HnswIndex => DegreeBounded t.nodes) _ _ _ ?_ ?_
  · exact degreeBounded_setNeighbors _ _ _ _
      (selectNeighborsFromCandidates_length _ _) h
  · intro b hb a _
    exact degreeBounded_addBackEdge b nodeIdx lc a hb

theorem degreeBounded_insertLink (s1 : HnswIndex) (nodeIdx level : ℕ)
    (query : Vec) (ep0 : ℕ) (h : DegreeBounded s1.nodes) :
    DegreeBounded (insertLink s1 nodeIdx level query ep0).nodes := by
  unfold insertLink
  dsimp only
  have hfold : DegreeBounded (((descRange 0 (min level s1.max_level)).foldl
      (insertLayerStep query nodeIdx)
      (s1, (descRange (level + 1) s1.max_level).foldl
        (fun ep lc => searchLayerSingle s1 query ep lc) ep0)).1.nodes) := by
    refine foldl_preserve (P := fun t : HnswIndex × ℕ => DegreeBounded t.1.nodes)
      _ _ _ h ?_
    intro b hb a _
    exact degreeBounded_insertLayerStep query nodeIdx b a hb
  split_ifs <;> exact hfold

theorem degreeBounded_insert (s : HnswIndex) (level : ℕ) (id : String) (v : Vec)
    (h : DegreeBounded s.nodes) :
    DegreeBounded (s.insert level id v).nodes := by
  unfold HnswIndex.insert
  rcases hl : s.id_to_idx.lookup id with _ | idx
  · dsimp only
    have h1 : DegreeBounded (s.nodes ++
        [⟨id, v, level, List.replicate (level + 1) []⟩]) := by
      intro j hj lc
      simp only [List.length_append, List.length_singleton] at hj
      rcases lt_or_le j s.nodes.length with hlt | hge
      · rw [getD_append_left _ _ _ _ hlt]
        exact h j hlt lc
      · have : j = s.nodes.length := by omega
        subst this
        rw [getD_snoc_last]
        show ((List.replicate (level + 1) ([] : List ℕ)).getD lc []).length ≤ _
        rw [getD_replicate_nil]
        simp
    cases he : s.entry_point with
    | none => exact h1
    | some ep0 => exact degreeBounded_insertLink _ _ _ _ _ h1
  · intro j hj lc
    rw [listModify_length] at hj
    by_cases hji : j = idx
    · subst hji
      rw [getD_listModify_self _ _ _ _ hj]
      exact h j hj lc
    · rw [getD_listModify_ne _ _ _ _ _ hji]
      exact h j hj lc

theorem reachable_degreeBounded (s : HnswIndex) (h : Reachable s) :
    DegreeBounded s.nodes := by
  induction h with
  | new => intro j hj _; simp [HnswIndex.new] at hj
  | insert s' lvl id v _ ih => exact degreeBounded_insert s' lvl id v ih
  | delete s' id _ ih => exact (delete_fields s' id).2.2.1 ▸ ih

/-- C5: the degree-bound invariant — in every index state reachable by any
sequence of `insert`/`delete` (over every possible random level draw), every
node's neighbor list at layer 0 has at most `2M = 32` entries and at every
layer ≥ 1 at most `M = 16` entries. -/
theorem C5_degree_bound (s : HnswIndex) (h : Reachable s) :
    ∀ nd ∈ s.nodes, ∀ lc : ℕ,
      (neighborsAt nd lc).length ≤ if lc = 0 then 32 else 16 := by
  intro nd hnd lc
  obtain ⟨j, hj, hval⟩ := List.mem_iff_getElem.mp hnd
  have hb := reachable_degreeBounded s h j hj lc
  rw [List.getD_eq_getElem _ _ hj, hval] at hb
  simpa [degreeBound, M_MAX_0, M_MAX, M] using hb

theorem C5_witness :
    (neighborsAt ⟨"a", [1], 0, [[]]⟩ 0).length ≤ if 0 = 0 then 32 else 16 :=
  C5_degree_bound (HnswIndex.new.insert 0 "a" [1])
    (Reachable.insert _ 0 "a" [1] Reachable.new) ⟨"a", [1], 0, [[]]⟩
    (by decide) 0

/-! ## Single-node search evaluation (C4) -/

theorem popMinC_singleton (c : Cand) : popMinC [c] = some (c, []) := rfl

theorem popMaxC_singleton (c : Cand) : popMaxC [c] = some (c, []) := rfl

theorem peekWorst_singleton (c : Cand) : peekWorst [c] = c.distance := by
  unfold peekWorst
  rw [popMaxC_singleton]

theorem sortCandAsc_singleton (c : Cand) : sortCandAsc [c] = [c] := rfl

theorem greedyPass_nil (s : HnswIndex) (q : Vec) (st : ℕ × ℝ × Bool) :
    greedyPass s q st [] = st := rfl

theorem searchLayerSingleAux_no_neighbors (s : HnswIndex) (q : Vec)
    (level fuel current : ℕ) (d : ℝ)
    (h : neighborsAt (s.nodeAt current) level = []) :
    searchLayerSingleAux s q level fuel current d = current := by
  cases fuel with
  | zero => rfl
  | succ f =>
    unfold searchLayerSingleAux
    rw [h, greedyPass_nil]
    rfl

theorem searchLayerLoop_singleton (s : HnswIndex) (q : Vec) (ef fuel : ℕ)
    (c : Cand) (V : Finset ℕ)
    (h : neighborsAt (s.nodeAt c.idx) 0 = []) :
    searchLayerLoop s q ef 0 (fuel + 2) (V, [c], [c]) = [c] := by
  show searchLayerLoop s q ef 0 ((fuel + 1) + 1) (V, [c], [c]) = [c]
  unfold searchLayerLoop
  rw [popMinC_singleton]
  simp only [peekWorst_singleton]
  rw [if_neg (fun hh => lt_irrefl c.distance hh.1)]
  rw [h]
  simp only [List.foldl_nil]
  show searchLayerLoop s q ef 0 (fuel + 1) (V, [], [c]) = [c]
  unfold searchLayerLoop
  rfl

/-- Searching the one-node index produced by a single fresh insert returns
exactly that node, scored by the cosine similarity of the query against the
stored vector. -/
theorem search_singleNode (id : String) (v q : Vec) (lvl k ef : ℕ)
    (hk : 1 ≤ k) :
    (HnswIndex.new.insert lvl id v).search q k ef
      = [(id, cosineSimilarity q v)] := by
  have hins : HnswIndex.new.insert lvl id v =
      ⟨[⟨id, v, lvl, List.replicate (lvl + 1) []⟩], some 0, lvl, [(id, 0)], ∅⟩ := rfl
  rw [hins]
  set S : HnswIndex :=
    ⟨[⟨id, v, lvl, List.replicate (lvl + 1) []⟩], some 0, lvl, [(id, 0)], ∅⟩
    with hS
  have hnodeAt0 : S.nodeAt 0 = ⟨id, v, lvl, List.replicate (lvl + 1) []⟩ := rfl
  have hnbrs : ∀ lc, neighborsAt (S.nodeAt 0) lc = [] := by
    intro lc
    rw [hnodeAt0]
    exact getD_replicate_nil _ _
  have htot : totalNeighborLen S = 0 := by
    simp [totalNeighborLen, hS]
  have hlen : S.len = 1 := by
    simp [HnswIndex.len, hS]
  unfold HnswIndex.search
  show (if S.isEmpty then []
    else
      let ep := (descRange 1 S.max_level).foldl
        (fun ep lc => searchLayerSingle S q ep lc) 0
      let candidates := searchLayer S q ep (max ef k) 0
      ((candidates.filter fun c => c.idx ∉ S.deleted).take k).map
        fun c => ((S.nodeAt c.idx).id, 1 - c.distance)) = _
  have hemp : S.isEmpty = false := by
    unfold HnswIndex.isEmpty
    rw [hlen]
    rfl
  rw [hemp]
  simp only [Bool.false_eq_true, if_false]
  have hep : (descRange 1 S.max_level).foldl
      (fun ep lc => searchLayerSingle S q ep lc) 0 = 0 := by
    refine foldl_preserve (P := fun ep => ep = 0) _ _ _ rfl ?_
    intro b hb a _
    rw [hb]
    unfold searchLayerSingle
    exact searchLayerSingleAux_no_neighbors _ _ _ _ _ _ (hnbrs a)
  rw [hep]
  have hsl : searchLayer S q 0 (max ef k) 0
      = [⟨0, hnswDistance q v⟩] := by
    unfold searchLayer
    rw [htot]
    show sortCandAsc (searchLayerLoop S q (max ef k) 0 (0 + 2)
      ({0}, [⟨0, hnswDistance q (S.nodeAt 0).vector⟩],
        [⟨0, hnswDistance q (S.nodeAt 0).vector⟩])) = _
    rw [searchLayerLoop_singleton S q (max ef k) 0 _ _ (hnbrs 0)]
    rw [sortCandAsc_singleton]
    rw [hnodeAt0]
  rw [hsl]
  have hfilter : (([⟨0, hnswDistance q v⟩] : List Cand).filter
      fun c => c.idx ∉ S.deleted) = [⟨0, hnswDistance q v⟩] := by
    simp [hS]
  rw [hfilter]
  rcases k with _ | k'
  · omega
  · rw [List.take_succ_cons, List.take_nil]
    simp only [List.map_cons, List.map_nil]
    rw [hnodeAt0]
    unfold hnswDistance
    rw [sub_sub_cancel]

theorem dotQ_self (v : Vec) : dotQ v v = sumSq v := by
  unfold dotQ sumSq
  induction v with
  | nil => rfl
  | cons x t ih => simp [List.zipWith_cons_cons, ih]

theorem cosineSimilarity_self (v : Vec) (hv : 0 < sumSq v) :
    cosineSimilarity v v = 1 := by
  unfold cosineSimilarity
  rw [if_neg (by simp)]
  dsimp only
  have hs : (0 : ℝ) < ((sumSq v : ℚ) : ℝ) := by exact_mod_cast hv
  rw [if_pos ⟨Real.sqrt_pos.mpr hs, Real.sqrt_pos.mpr hs⟩]
  rw [dotQ_self, Real.mul_self_sqrt (le_of_lt hs)]
  exact div_self (ne_of_gt hs)

/-- C4 counterexample: inserting the zero vector into a fresh index and
searching for it returns similarity 0, not 1 (cosine similarity is guarded
to 0 when a norm is 0), refuting the claim's universal quantification over
all vectors `v`. -/
theorem C4_counterexample :
    (HnswIndex.new.insert 0 "a" [0]).search [0] 1 1 = [("a", 0)] := by
  rw [search_singleNode "a" [0] [0] 0 1 1 (le_refl 1)]
  have : cosineSimilarity [0] [0] = 0 := by
    unfold cosineSimilarity
    rw [if_neg (by simp)]
    dsimp only
    rw [if_neg (by simp [sumSq])]
  rw [this]

/-- C4 (amended): for every vector `v` with nonzero Euclidean norm, after
`insert(id, v)` into a freshly created index (at any drawn level),
`search(v, 1, ef)` for any `ef` returns exactly `[(id, 1)]` in exact real
arithmetic — the inserted vector is its own nearest neighbor at similarity 1.
(The claim's zero-vector instances fail: they return similarity 0.) -/
theorem C4_round_trip (id : String) (v : Vec) (lvl ef : ℕ)
    (hv : 0 < sumSq v) :
    (HnswIndex.new.insert lvl id v).search v 1 ef = [(id, 1)] := by
  rw [search_singleNode id v v lvl 1 ef (le_refl 1), cosineSimilarity_self v hv]

theorem C4_witness :
    (HnswIndex.new.insert 0 "a" [1]).search [1] 1 1 = [("a", 1)] :=
  C4_round_trip "a" [1] 0 1 (by norm_num [sumSq])

/-! ## Guarded cosine similarity (C9) -/

theorem cosineSimilarity_length_ne (a b : Vec) (h : a.length ≠ b.length) :
    cosineSimilarity a b = 0 := by
  unfold cosineSimilarity
  rw [if_pos h]

theorem cosineSimilarity_zero_norm (a b : Vec)
    (h : sumSq a = 0 ∨ sumSq b = 0) : cosineSimilarity a b = 0 := by
  unfold cosineSimilarity
  by_cases hlen : a.length ≠ b.length
  · rw [if_pos hlen]
  · rw [if_neg hlen]
    dsimp only
    rcases h with h | h <;>
      [ rw [if_neg (fun hc => by
          have := Real.sqrt_pos.mp hc.1
          rw [h] at this
          simpa using this)];
        rw [if_neg (fun hc => by
          have := Real.sqrt_pos.mp hc.2
          rw [h] at this
          simpa using this)] ]

/-- Under a query-dimension mismatch every distance the index can compute
during a search is exactly 1. -/
theorem hnswDistance_nodeAt_one (s : HnswIndex) (q : Vec)
    (hdim : ∀ nd ∈ s.nodes, nd.vector.length ≠ q.length) (i : ℕ) :
    hnswDistance q ((s.nodeAt i).vector) = 1 := by
  have hcos : cosineSimilarity q ((s.nodeAt i).vector) = 0 := by
    rcases lt_or_le i s.nodes.length with hlt | hge
    · have hmem : s.nodeAt i ∈ s.nodes := by
        unfold HnswIndex.nodeAt
        rw [List.getD_eq_getElem _ _ hlt]
        exact List.getElem_mem _
      exact cosineSimilarity_length_ne _ _ (fun hh => hdim _ hmem hh.symm)
    · have hdef : s.nodeAt i = defaultNode := by
        unfold HnswIndex.nodeAt
        rw [List.getD_eq_default]
        simpa using hge
      rw [hdef]
      by_cases hq : q.length = 0
      · exact cosineSimilarity_zero_norm _ _ (Or.inr (by simp [sumSq, defaultNode]))
      · exact cosineSimilarity_length_ne _ _ (by simpa [defaultNode] using hq)
  unfold hnswDistance
  rw [hcos]
  norm_num

theorem scanNeighbor_dist_inv (s : HnswIndex) (q : Vec) (ef : ℕ)
    (st : Finset ℕ × List Cand × List Cand) (nb : ℕ)
    (hd : ∀ i, hnswDistance q ((s.nodeAt i).vector) = 1)
    (h : (∀ c ∈ st.2.1, c.distance = 1) ∧ ∀ c ∈ st.2.2, c.distance = 1) :
    (∀ c ∈ (scanNeighbor s q ef st nb).2.1, c.distance = 1)
    ∧ ∀ c ∈ (scanNeighbor s q ef st nb).2.2, c.distance = 1 := by
  have hcons : ∀ c ∈ (⟨nb, hnswDistance q ((s.nodeAt nb).vector)⟩ : Cand)
      :: st.2.2, c.distance = 1 := by
    intro c hc
    rcases List.mem_cons.mp hc with hc | hc
    · rw [hc]; exact hd nb
    · exact h.2 c hc
  unfold scanNeighbor
  dsimp only
  by_cases h1 : nb ∈ st.1 ∨ nb ∈ s.deleted
  · rw [if_pos h1]
    exact h
  · rw [if_neg h1]
    by_cases h2 : hnswDistance q ((s.nodeAt nb).vector) < peekWorst st.2.2
        ∨ st.2.2.length < ef
    · rw [if_pos h2]
      dsimp only
      refine ⟨?_, ?_⟩
      · intro c hc
        rcases List.mem_cons.mp hc with hc | hc
        · rw [hc]; exact hd nb
        · exact h.1 c hc
      · intro c hc
        by_cases h3 : ef < ((⟨nb, hnswDistance q ((s.nodeAt nb).vector)⟩ : Cand)
            :: st.2.2).length
        · rw [if_pos h3] at hc
          rcases hpop : popMaxC ((⟨nb, hnswDistance q ((s.nodeAt nb).vector)⟩ : Cand)
              :: st.2.2) with _ | ⟨m, rest⟩
          · rw [hpop] at hc
            exact hcons c hc
          · rw [hpop] at hc
            exact hcons c ((popMaxC_mem hpop).2 c hc)
        · rw [if_neg h3] at hc
          exact hcons c hc
    · rw [if_neg h2]
      exact ⟨h.1, h.2⟩

theorem searchLayerLoop_dist_inv (s : HnswIndex) (q : Vec) (ef level fuel : ℕ)
    (st : Finset ℕ × List Cand × List Cand)
    (hd : ∀ i, hnswDistance q ((s.nodeAt i).vector) = 1)
    (h : (∀ c ∈ st.2.1, c.distance = 1) ∧ ∀ c ∈ st.2.2, c.distance = 1) :
    ∀ c ∈ searchLayerLoop s q ef level fuel st, c.distance = 1 := by
  induction fuel generalizing st with
  | zero => exact h.2
  | succ f ih =>
    unfold searchLayerLoop
    rcases hpop : popMinC st.2.1 with _ | ⟨c, rest⟩
    · exact h.2
    · dsimp only
      split_ifs with hbr
      · exact h.2
      · refine ih _ ?_
        refine foldl_preserve (P := fun t : Finset ℕ × List Cand × List Cand =>
          (∀ c ∈ t.2.1, c.distance = 1) ∧ ∀ c ∈ t.2.2, c.distance = 1) _ _ _ ?_ ?_
        · exact ⟨fun x hx => h.1 x ((popMinC_mem hpop).2 x hx), h.2⟩
        · intro b hb a _
          exact scanNeighbor_dist_inv s q ef b a hd hb

/-- C9: cosine similarity is total and guarded — it returns exactly 0 when
the lengths differ or either vector has zero Euclidean norm (sum of squares
zero), and consequently a search whose query dimension matches no stored
vector treats every node as being at distance exactly 1 and scores every
returned result with similarity exactly 0. -/
theorem C9_cosine_guarded :
    (∀ a b : Vec, a.length ≠ b.length → cosineSimilarity a b = 0)
    ∧ (∀ a b : Vec, sumSq a = 0 ∨ sumSq b = 0 → cosineSimilarity a b = 0)
    ∧ (∀ (s : HnswIndex) (q : Vec),
        (∀ nd ∈ s.nodes, nd.vector.length ≠ q.length) →
        (∀ i, hnswDistance q ((s.nodeAt i).vector) = 1)
        ∧ ∀ (k ef : ℕ) (p : String × ℝ), p ∈ s.search q k ef → p.2 = 0) := by
  refine ⟨cosineSimilarity_length_ne, cosineSimilarity_zero_norm, ?_⟩
  intro s q hdim
  have hd := hnswDistance_nodeAt_one s q hdim
  refine ⟨hd, ?_⟩
  intro k ef p hp
  unfold HnswIndex.search at hp
  rcases he : s.entry_point with _ | ep0
  · rw [he] at hp
    simp at hp
  · rw [he] at hp
    dsimp only at hp
    split_ifs at hp with hne
    · simp at hp
    · obtain ⟨c, hc, hcp⟩ := List.mem_map.mp hp
      have hc1 : c ∈ searchLayer s q _ (max ef k) 0 :=
        (List.mem_filter.mp (List.mem_of_mem_take hc)).1
      have hcd : c.distance = 1 := by
        refine searchLayerLoop_dist_inv s q (max ef k) 0 _ _ hd ?_ c
          (mem_sortCandAsc hc1)
        constructor <;> intro x hx <;> rcases List.mem_singleton.mp hx with rfl
          <;> exact hd _
      rw [← hcp]
      rw [hcd]
      norm_num

theorem C9_witness :
    cosineSimilarity [1] [1, 0] = 0
    ∧ hnswDistance [1]
        (((⟨[⟨"a", [1, 0], 0, [[]]⟩], some 0, 0, [("a", 0)], ∅⟩ : HnswIndex).nodeAt
          0).vector) = 1 :=
  ⟨C9_cosine_guarded.1 [1] [1, 0] (by decide),
    (C9_cosine_guarded.2.2 ⟨[⟨"a", [1, 0], 0, [[]]⟩], some 0, 0, [("a", 0)], ∅⟩
      [1] (by decide)).1 0⟩

/-! ## Search stays in range (C3) -/

theorem neighborsAt_in_range (s : HnswIndex)
    (hnb : ∀ nd ∈ s.nodes, ∀ l ∈ nd.neighbors, ∀ j ∈ l, j < s.nodes.length)
    (i lc : ℕ) : ∀ j ∈ neighborsAt (s.nodeAt i) lc, j < s.nodes.length := by
  intro j hj
  rcases lt_or_le i s.nodes.length with hlt | hge
  · have hmem : s.nodeAt i ∈ s.nodes := by
      unfold HnswIndex.nodeAt
      rw [List.getD_eq_getElem _ _ hlt]
      exact List.getElem_mem _
    unfold neighborsAt at hj
    rcases lt_or_le lc (s.nodeAt i).neighbors.length with hlc | hlc
    · rw [List.getD_eq_getElem _ _ hlc] at hj
      exact hnb _ hmem _ (List.getElem_mem _) j hj
    · rw [List.getD_eq_default _ _ (by simpa using hlc)] at hj
      simp at hj
  · have hdef : s.nodeAt i = defaultNode := by
      unfold HnswIndex.nodeAt
      rw [List.getD_eq_default]
      simpa using hge
    rw [hdef] at hj
    simp [neighborsAt, defaultNode] at hj

theorem greedyPass_fst (s : HnswIndex) (q : Vec) (st : ℕ × ℝ × Bool)
    (nbrs : List ℕ) :
    (greedyPass s q st nbrs).1 = st.1 ∨ (greedyPass s q st nbrs).1 ∈ nbrs := by
  unfold greedyPass
  refine foldl_preserve (P := fun acc : ℕ × ℝ × Bool =>
    acc.1 = st.1 ∨ acc.1 ∈ nbrs) _ _ _ (Or.inl rfl) ?_
  intro b hb a ha
  dsimp only
  split_ifs with h1 h2
  · exact hb
  · exact Or.inr ha
  · exact hb

theorem searchLayerSingleAux_lt (s : HnswIndex) (q : Vec) (level : ℕ)
    (hnb : ∀ nd ∈ s.nodes, ∀ l ∈ nd.neighbors, ∀ j ∈ l, j < s.nodes.length)
    (fuel : ℕ) : ∀ (current : ℕ) (d : ℝ), current < s.nodes.length →
    searchLayerSingleAux s q level fuel current d < s.nodes.length := by
  induction fuel with
  | zero => intro current d h; exact h
  | succ f ih =>
    intro current d h
    unfold searchLayerSingleAux
    dsimp only
    split_ifs with hch
    · refine ih _ _ ?_
      rcases greedyPass_fst s q (current, d, false)
        (neighborsAt (s.nodeAt current) level) with he | he
      · rw [he]; exact h
      · exact neighborsAt_in_range s hnb current level _ he
    · exact h

theorem searchLayerSingle_lt (s : HnswIndex) (q : Vec) (ep level : ℕ)
    (hnb : ∀ nd ∈ s.nodes, ∀ l ∈ nd.neighbors, ∀ j ∈ l, j < s.nodes.length)
    (h : ep < s.nodes.length) :
    searchLayerSingle s q ep level < s.nodes.length :=
  searchLayerSingleAux_lt s q level hnb _ ep _ h

theorem scanNeighbor_range (s : HnswIndex) (q : Vec) (ef : ℕ)
    (st : Finset ℕ × List Cand × List Cand) (nb : ℕ)
    (hb : nb < s.nodes.length)
    (h : (∀ c ∈ st.2.1, c.idx < s.nodes.length)
      ∧ ∀ c ∈ st.2.2, c.idx < s.nodes.length) :
    (∀ c ∈ (scanNeighbor s q ef st nb).2.1, c.idx < s.nodes.length)
    ∧ ∀ c ∈ (scanNeighbor s q ef st nb).2.2, c.idx < s.nodes.length := by
  have hcons : ∀ c ∈ (⟨nb, hnswDistance q ((s.nodeAt nb).vector)⟩ : Cand)
      :: st.2.2, c.idx < s.nodes.length := by
    intro c hc
    rcases List.mem_cons.mp hc with hc | hc
    · rw [hc]; exact hb
    · exact h.2 c hc
  unfold scanNeighbor
  dsimp only
  by_cases h1 : nb ∈ st.1 ∨ nb ∈ s.deleted
  · rw [if_pos h1]
    exact h
  · rw [if_neg h1]
    by_cases h2 : hnswDistance q ((s.nodeAt nb).vector) < peekWorst st.2.2
        ∨ st.2.2.length < ef
    · rw [if_pos h2]
      dsimp only
      refine ⟨?_, ?_⟩
      · intro c hc
        rcases List.mem_cons.mp hc with hc | hc
        · rw [hc]; exact hb
        · exact h.1 c hc
      · intro c hc
        by_cases h3 : ef < ((⟨nb, hnswDistance q ((s.nodeAt nb).vector)⟩ : Cand)
            :: st.2.2).length
        · rw [if_pos h3] at hc
          rcases hpop : popMaxC ((⟨nb, hnswDistance q ((s.nodeAt nb).vector)⟩ : Cand)
              :: st.2.2) with _ | ⟨m, rest⟩
          · rw [hpop] at hc
            exact hcons c hc
          · rw [hpop] at hc
            exact hcons c ((popMaxC_mem hpop).2 c hc)
        · rw [if_neg h3] at hc
          exact hcons c hc
    · rw [if_neg h2]
      exact ⟨h.1, h.2⟩

theorem searchLayerLoop_range (s : HnswIndex) (q : Vec) (ef level : ℕ)
    (hnb : ∀ nd ∈ s.nodes, ∀ l ∈ nd.neighbors, ∀ j ∈ l, j < s.nodes.length)
    (fuel : ℕ) : ∀ (st : Finset ℕ × List Cand × List Cand),
    (∀ c ∈ st.2.1, c.idx < s.nodes.length) →
    (∀ c ∈ st.2.2, c.idx < s.nodes.length) →
    ∀ c ∈ searchLayerLoop s q ef level fuel st, c.idx < s.nodes.length := by
  induction fuel with
  | zero => intro st _ h2; exact h2
  | succ f ih =>
    intro st h1 h2
    unfold searchLayerLoop
    rcases hpop : popMinC st.2.1 with _ | ⟨c, rest⟩
    · exact h2
    · dsimp only
      split_ifs with hbr
      · exact h2
      · have hc : c.idx < s.nodes.length := h1 c (popMinC_mem hpop).1
        have hfold := foldl_preserve
          (P := fun t : Finset ℕ × List Cand × List Cand =>
            (∀ x ∈ t.2.1, x.idx < s.nodes.length)
            ∧ ∀ x ∈ t.2.2, x.idx < s.nodes.length)
          (scanNeighbor s q ef) (neighborsAt (s.nodeAt c.idx) level)
          (st.1, rest, st.2.2)
          ⟨fun x hx => h1 x ((popMinC_mem hpop).2 x hx), h2⟩
          (fun b hb a ha => scanNeighbor_range s q ef b a
            (neighborsAt_in_range s hnb c.idx level a ha) hb)
        exact ih _ hfold.1 hfold.2

/-- Every pair a `search` returns names a live, in-range node slot. -/
theorem search_result_shape (s : HnswIndex) (q : Vec) (k ef : ℕ)
    (p : String × ℝ)
    (hentry : ∀ e, s.entry_point = some e → e < s.nodes.length)
    (hnb : ∀ nd ∈ s.nodes, ∀ l ∈ nd.neighbors, ∀ j ∈ l, j < s.nodes.length)
    (hp : p ∈ s.search q k ef) :
    ∃ c : Cand, c.idx < s.nodes.length ∧ c.idx ∉ s.deleted
      ∧ p.1 = (s.nodeAt c.idx).id := by
  unfold HnswIndex.search at hp
  rcases he : s.entry_point with _ | ep0
  · rw [he] at hp
    simp at hp
  · rw [he] at hp
    dsimp only at hp
    split_ifs at hp with hne
    · simp at hp
    · obtain ⟨c, hc, hcp⟩ := List.mem_map.mp hp
      have hcf := List.mem_filter.mp (List.mem_of_mem_take hc)
      have hc1 : c ∈ searchLayer s q _ (max ef k) 0 := hcf.1
      have hdel : c.idx ∉ s.deleted := by
        have := hcf.2
        simpa using this
      have hep : (descRange 1 s.max_level).foldl
          (fun ep lc => searchLayerSingle s q ep lc) ep0 < s.nodes.length := by
        refine foldl_preserve (P := fun ep => ep < s.nodes.length) _ _ _
          (hentry ep0 he) ?_
        intro b hb a _
        exact searchLayerSingle_lt s q b a hnb hb
      have hrange : c.idx < s.nodes.length := by
        refine searchLayerLoop_range s q (max ef k) 0 hnb _ _ ?_ ?_ c
          (mem_sortCandAsc hc1)
        · intro x hx
          rcases List.mem_singleton.mp hx with rfl
          exact hep
        · intro x hx
          rcases List.mem_singleton.mp hx with rfl
          exact hep
      exact ⟨c, hrange, hdel, by rw [← hcp]⟩

theorem mem_of_lookup_eq_some {l : List (String × ℕ)} {a : String} {b : ℕ}
    (h : List.lookup a l = some b) : (a, b) ∈ l := by
  induction l with
  | nil => simp [List.lookup] at h
  | cons p t ih =>
    rcases p with ⟨x, y⟩
    by_cases hx : (a == x) = true
    · simp only [List.lookup, hx, Option.some.injEq] at h
      exact List.mem_cons.mpr (Or.inl (by rw [eq_of_beq hx, h]))
    · simp only [List.lookup, Bool.not_eq_true] at h
      rw [Bool.not_eq_true] at hx
      rw [hx] at h
      exact List.mem_cons.mpr (Or.inr (ih h))

/-- C3: delete semantics — for every well-formed index state in which `id`
is present and not tombstoned, `delete(id)` returns `true`, `contains(id)`
becomes false, `len` drops by exactly one, the node array is untouched (the
node remains stored internally), and `id` never appears in the result list
of any subsequent `search`, for every query, `k`, and `ef`. -/
theorem C3_delete_semantics (s : HnswIndex) (id : String) (hwf : WF s)
    (hc : s.contains id = true) :
    (s.delete id).1 = true
    ∧ (s.delete id).2.contains id = false
    ∧ (s.delete id).2.len + 1 = s.len
    ∧ (s.delete id).2.nodes = s.nodes
    ∧ ∀ (q : Vec) (k ef : ℕ) (p : String × ℝ),
        p ∈ (s.delete id).2.search q k ef → p.1 ≠ id := by
  obtain ⟨hwf1, hwf2, hwf3, hwf4, hwf5⟩ := hwf
  have hidx : ∃ idx, s.id_to_idx.lookup id = some idx ∧ idx ∉ s.deleted := by
    unfold HnswIndex.contains at hc
    rcases hlk : s.id_to_idx.lookup id with _ | idx
    · rw [hlk] at hc
      simp at hc
    · rw [hlk] at hc
      dsimp only at hc
      refine ⟨idx, rfl, ?_⟩
      intro hmem
      rw [if_pos hmem] at hc
      simp at hc
  obtain ⟨idx, hl, hd⟩ := hidx
  have hidxlt : idx < s.nodes.length := by
    have := hwf2 (id, idx) (mem_of_lookup_eq_some hl)
    exact this.1
  have hdel : s.delete id = (true, { s with deleted := insert idx s.deleted }) := by
    unfold HnswIndex.delete
    rw [hl]
  rw [hdel]
  refine ⟨rfl, ?_, ?_, rfl, ?_⟩
  · unfold HnswIndex.contains
    show (match s.id_to_idx.lookup id with
      | some i => if i ∈ insert idx s.deleted then false else true
      | none => false) = false
    rw [hl]
    simp
  · show (s.nodes.length - (insert idx s.deleted).card) + 1
      = s.nodes.length - s.deleted.card
    rw [Finset.card_insert_of_not_mem hd]
    have hsub : insert idx s.deleted ⊆ Finset.range s.nodes.length := by
      intro x hx
      rcases Finset.mem_insert.mp hx with hx | hx
      · rw [hx]; exact Finset.mem_range.mpr hidxlt
      · exact Finset.mem_range.mpr (hwf5 x hx)
    have hcard := Finset.card_le_card hsub
    rw [Finset.card_insert_of_not_mem hd, Finset.card_range] at hcard
    omega
  · intro q k ef p hp hpid
    obtain ⟨c, hrange, hcdel, hcid⟩ := search_result_shape
      { s with deleted := insert idx s.deleted } q k ef p
      (fun e he => hwf3 e he) hwf4 hp
    have hluk : s.id_to_idx.lookup ((s.nodeAt c.idx).id) = some c.idx :=
      hwf1 c.idx hrange
    rw [show (({ s with deleted := insert idx s.deleted } : HnswIndex).nodeAt c.idx)
      = s.nodeAt c.idx from rfl] at hcid
    rw [hpid] at hcid
    rw [← hcid, hl] at hluk
    have hceq : idx = c.idx := by injection hluk
    rw [← hceq] at hcdel
    exact hcdel (Finset.mem_insert_self idx s.deleted)

theorem C3_witness :
    ((⟨[⟨"a", [1], 0, [[]]⟩], some 0, 0, [("a", 0)], ∅⟩ : HnswIndex).delete "a").1
      = true
    ∧ ((⟨[⟨"a", [1], 0, [[]]⟩], some 0, 0, [("a", 0)], ∅⟩ : HnswIndex).delete
        "a").2.contains "a" = false :=
  ⟨(C3_delete_semantics ⟨[⟨"a", [1], 0, [[]]⟩], some 0, 0, [("a", 0)], ∅⟩ "a"
      (by decide) (by decide)).1,
    (C3_delete_semantics ⟨[⟨"a", [1], 0, [[]]⟩], some 0, 0, [("a", 0)], ∅⟩ "a"
      (by decide) (by decide)).2.1⟩

/-! ## RRF fusion (C6) -/

theorem lookup_cons_self {β : Type _} (a : String) (v : β) (t : List (String × β)) :
    List.lookup a ((a, v) :: t) = some v := by
  rw [List.lookup_cons]
  rw [show (a == a) = true from beq_self_eq_true a]

theorem lookup_cons_of_ne {β : Type _} (a : String) (v : β) (t : List (String × β))
    (q : String) (h : q ≠ a) :
    List.lookup q ((a, v) :: t) = List.lookup q t := by
  rw [List.lookup_cons]
  rw [show (q == a) = false from beq_eq_false_iff_ne.mpr h]

theorem lookup_addScore (acc : List (String × ℚ)) (p : String) (sc : ℚ)
    (q : String) :
    (addScore acc p sc).lookup q =
      if q = p then some ((acc.lookup q).getD 0 + sc) else acc.lookup q := by
  induction acc with
  | nil =>
    by_cases hq : q = p
    · subst hq
      show List.lookup q [(q, sc)] = _
      rw [lookup_cons_self, if_pos rfl]
      simp [List.lookup]
    · show List.lookup q [(p, sc)] = _
      rw [lookup_cons_of_ne _ _ _ _ hq, if_neg hq]
  | cons hd t ih =>
    rcases hd with ⟨a, v⟩
    by_cases hap : a = p
    · subst hap
      rw [show addScore ((a, v) :: t) a sc = (a, v + sc) :: t from by
        simp [addScore]]
      by_cases hqa : q = a
      · subst hqa
        rw [lookup_cons_self, if_pos rfl, lookup_cons_self]
        simp
      · rw [lookup_cons_of_ne _ _ _ _ hqa, if_neg hqa,
          lookup_cons_of_ne _ _ _ _ hqa]
    · rw [show addScore ((a, v) :: t) p sc = (a, v) :: addScore t p sc from by
        simp [addScore, hap]]
      by_cases hqa : q = a
      · subst hqa
        have hqp : q ≠ p := hap
        rw [lookup_cons_self, if_neg hqp, lookup_cons_self]
      · rw [lookup_cons_of_ne _ _ _ _ hqa, ih, lookup_cons_of_ne _ _ _ _ hqa]

theorem findIdx?_eq_none_of_not_mem (l : List (String × ℚ)) (q : String)
    (i : ℕ) (h : q ∉ l.map Prod.fst) :
    l.findIdx? (fun p => p.1 == q) i = none := by
  induction l generalizing i with
  | nil => simp
  | cons hd t ih =>
    rw [List.findIdx?_cons]
    simp only [List.map_cons, List.mem_cons] at h
    push_neg at h
    rw [show (hd.1 == q) = false from beq_eq_false_iff_ne.mpr
      (fun hh => h.1 hh.symm)]
    simp only [Bool.false_eq_true, if_false]
    exact ih (i + 1) h.2

theorem lookup_rrfPass (w k : ℚ) (l : List (String × ℚ)) :
    ∀ (r : ℕ) (acc : List (String × ℚ)) (q : String),
    (l.map Prod.fst).Nodup →
    (rrfPass w k r acc l).lookup q =
      match l.findIdx? (fun p => p.1 == q) with
      | some i => some ((acc.lookup q).getD 0 + w / (k + ((r : ℚ) + i + 1)))
      | none => acc.lookup q := by
  induction l with
  | nil =>
    intro r acc q _
    simp [rrfPass]
  | cons hd t ih =>
    intro r acc q hnd
    rcases hd with ⟨path, sc⟩
    simp only [List.map_cons, List.nodup_cons] at hnd
    show (rrfPass w k (r + 1) (addScore acc path (w / (k + ((r : ℚ) + 1)))) t).lookup q
      = _
    rw [ih (r + 1) _ q hnd.2]
    rw [List.findIdx?_cons]
    by_cases hpq : path = q
    · subst hpq
      rw [if_pos (by simp)]
      rw [findIdx?_eq_none_of_not_mem t path 0 hnd.1]
      dsimp only
      rw [lookup_addScore, if_pos rfl]
      push_cast
      ring_nf
    · rw [if_neg (by simp [hpq])]
      rw [List.findIdx?_succ]
      rcases hfd : t.findIdx? (fun p => p.1 == q) with _ | i
      · rw [hfd]
        simp only [Option.map_none']
        rw [lookup_addScore, if_neg (fun hh => hpq hh.symm)]
      · rw [hfd]
        simp only [Option.map_some']
        rw [lookup_addScore, if_neg (fun hh => hpq hh.symm)]
        push_cast
        ring_nf

theorem mem_keys_addScore (acc : List (String × ℚ)) (p : String) (sc : ℚ)
    (x : String) :
    x ∈ (addScore acc p sc).map Prod.fst ↔ x ∈ acc.map Prod.fst ∨ x = p := by
  induction acc with
  | nil => simp [addScore]
  | cons hd t ih =>
    rcases hd with ⟨a, v⟩
    by_cases hap : a = p
    · subst hap
      rw [show addScore ((a, v) :: t) a sc = (a, v + sc) :: t from by
        simp [addScore]]
      simp only [List.map_cons, List.mem_cons]
      tauto
    · rw [show addScore ((a, v) :: t) p sc = (a, v) :: addScore t p sc from by
        simp [addScore, hap]]
      simp only [List.map_cons, List.mem_cons, ih]
      tauto

theorem nodup_keys_addScore (acc : List (String × ℚ)) (p : String) (sc : ℚ)
    (h : (acc.map Prod.fst).Nodup) :
    ((addScore acc p sc).map Prod.fst).Nodup := by
  induction acc with
  | nil => simp [addScore]
  | cons hd t ih =>
    rcases hd with ⟨a, v⟩
    by_cases hap : a = p
    · subst hap
      simpa [addScore] using h
    · simp only [addScore, if_neg hap, List.map_cons, List.nodup_cons] at h ⊢
      refine ⟨?_, ih h.2⟩
      rw [mem_keys_addScore]
      push_neg
      exact ⟨h.1, hap⟩

theorem mem_keys_rrfPass (w k : ℚ) (l : List (String × ℚ)) :
    ∀ (r : ℕ) (acc : List (String × ℚ)) (x : String),
    (x ∈ (rrfPass w k r acc l).map Prod.fst
      ↔ x ∈ acc.map Prod.fst ∨ x ∈ l.map Prod.fst) := by
  induction l with
  | nil => intro r acc x; simp [rrfPass]
  | cons hd t ih =>
    intro r acc x
    rcases hd with ⟨path, sc⟩
    show x ∈ (rrfPass w k (r + 1) (addScore acc path _) t).map Prod.fst ↔ _
    rw [ih]
    rw [mem_keys_addScore]
    simp only [List.map_cons, List.mem_cons]
    tauto

theorem nodup_keys_rrfPass (w k : ℚ) (l : List (String × ℚ)) :
    ∀ (r : ℕ) (acc : List (String × ℚ)),
    (acc.map Prod.fst).Nodup → ((rrfPass w k r acc l).map Prod.fst).Nodup := by
  induction l with
  | nil => intro r acc h; simpa [rrfPass] using h
  | cons hd t ih =>
    intro r acc h
    rcases hd with ⟨path, sc⟩
    exact ih (r + 1) _ (nodup_keys_addScore _ _ _ h)

theorem lookup_of_mem_nodup (acc : List (String × ℚ)) (x : String) (v : ℚ) :
    (acc.map Prod.fst).Nodup → (x, v) ∈ acc → acc.lookup x = some v := by
  induction acc with
  | nil => intro _ hm; simp at hm
  | cons hd t ih =>
    intro h hm
    rcases hd with ⟨a, b⟩
    simp only [List.map_cons, List.nodup_cons] at h
    rcases List.mem_cons.mp hm with heq | hmem
    · have h1 : x = a := congrArg Prod.fst heq
      have h2 : v = b := congrArg Prod.snd heq
      rw [h1, h2]
      exact lookup_cons_self _ _ _
    · have hxa : x ≠ a := fun hh =>
        h.1 (List.mem_map.mpr ⟨(x, v), hmem, hh⟩)
      rw [lookup_cons_of_ne _ _ _ _ hxa]
      exact ih h.2 hmem

/-- C6: RRF fusion — for all input lists with distinct identifiers per list,
every pair `fuse_rrf` emits carries exactly the sum over both lists of
`weight / (k + r)` (`r` the 1-based rank, 0 when absent, as the spec words
it), the emitted identifiers are exactly those of the two input lists, the
output is sorted descending by fused score, and on the spec's concrete
example the fused top result is `d2`. -/
theorem C6_rrf_fusion :
    (∀ (config : HybridConfig) (semantic bm25 : List (String × ℚ)),
      (semantic.map Prod.fst).Nodup → (bm25.map Prod.fst).Nodup →
      (∀ p ∈ fuseRrf semantic bm25 config,
        p.2 = specRrfContribution config.semantic_weight (config.rrf_k : ℚ)
            semantic p.1
          + specRrfContribution config.bm25_weight (config.rrf_k : ℚ) bm25 p.1)
      ∧ (∀ id : String, id ∈ (fuseRrf semantic bm25 config).map Prod.fst ↔
          id ∈ semantic.map Prod.fst ∨ id ∈ bm25.map Prod.fst)
      ∧ (fuseRrf semantic bm25 config).Sorted (fun a b => b.2 ≤ a.2))
    ∧ (fuseRrf [("d1", 9 / 10), ("d2", 4 / 5)] [("d2", 5), ("d3", 3)]
        HybridConfig.default).head?.map Prod.fst = some "d2" := by
  constructor
  · intro config semantic bm25 h1 h2
    have hnodup : ((rrfPass config.bm25_weight (config.rrf_k : ℚ) 0
        (rrfPass config.semantic_weight (config.rrf_k : ℚ) 0 [] semantic)
        bm25).map Prod.fst).Nodup :=
      nodup_keys_rrfPass _ _ _ 0 _
        (nodup_keys_rrfPass _ _ _ 0 [] (by simp))
    refine ⟨?_, ?_, ?_⟩
    · intro p hp
      have hmem : p ∈ rrfPass config.bm25_weight (config.rrf_k : ℚ) 0
          (rrfPass config.semantic_weight (config.rrf_k : ℚ) 0 [] semantic)
          bm25 :=
        (List.perm_insertionSort _ _).subset hp
      have hscore := lookup_of_mem_nodup _ p.1 p.2 hnodup hmem
      rw [lookup_rrfPass config.bm25_weight (config.rrf_k : ℚ) bm25 0 _ p.1 h2]
        at hscore
      rw [lookup_rrfPass config.semantic_weight (config.rrf_k : ℚ) semantic 0
        [] p.1 h1] at hscore
      rcases hsf : semantic.findIdx? (fun x => x.1 == p.1) with _ | j <;>
        rcases hbf : bm25.findIdx? (fun x => x.1 == p.1) with _ | i <;>
        simp only [hsf, hbf] at hscore <;>
        simp only [specRrfContribution, hsf, hbf]
      · simp at hscore
      · injection hscore with h
        rw [← h]
        simp only [List.lookup_nil, Option.getD_none]
        push_cast
        ring
      · injection hscore with h
        rw [← h]
        simp only [List.lookup_nil, Option.getD_none, Option.getD_some]
        push_cast
        ring
      · injection hscore with h
        rw [← h]
        simp only [List.lookup_nil, Option.getD_none, Option.getD_some]
        push_cast
        ring
    · intro id
      have hiff := ((List.perm_insertionSort (fun a b : String × ℚ => b.2 ≤ a.2)
        (rrfPass config.bm25_weight (config.rrf_k : ℚ) 0
          (rrfPass config.semantic_weight (config.rrf_k : ℚ) 0 [] semantic)
          bm25)).map Prod.fst).mem_iff (a := id)
      rw [mem_keys_rrfPass, mem_keys_rrfPass] at hiff
      simp only [List.map_nil, List.not_mem_nil, false_or] at hiff
      exact hiff
    · exact List.sorted_insertionSort _ _
  · norm_num [fuseRrf, rrfPass, addScore, HybridConfig.default,
      List.insertionSort, List.orderedInsert]

theorem C6_witness :
    (fuseRrf [("x", 1)] [("y", 2)] HybridConfig.default).Sorted
      (fun a b => b.2 ≤ a.2) :=
  (C6_rrf_fusion.1 HybridConfig.default [("x", 1)] [("y", 2)]
    (by decide) (by decide)).2.2

/-! ## Embedder contract (C7) -/

theorem embedToken_length (t : List Char) :
    (embedToken t).length = EMBEDDING_DIM := by
  unfold embedToken
  rw [List.length_flatten, List.map_map]
  have hconst : List.map (List.length ∘ fun m =>
      [Real.sin (2 * Real.pi * ((tokenToInteger t % m : ℕ) : ℝ) / (m : ℝ)),
       Real.cos (2 * Real.pi * ((tokenToInteger t % m : ℕ) : ℝ) / (m : ℝ))])
      (COPRIME_MODULI.take NUM_MODULI)
      = List.map (fun _ => 2) (COPRIME_MODULI.take NUM_MODULI) := by
    apply List.map_congr_left
    intro a _
    rfl
  rw [hconst, List.map_const', List.sum_replicate, List.length_take]
  have hlen : COPRIME_MODULI.length = 194 := rfl
  rw [hlen]
  rfl

theorem sumEmbedding_length (tokens : List (List Char)) :
    (sumEmbedding tokens).length = EMBEDDING_DIM := by
  unfold sumEmbedding
  refine foldl_preserve (P := fun acc : List ℝ => acc.length = EMBEDDING_DIM)
    _ _ _ (by simp) ?_
  intro b hb a _
  rw [List.length_zipWith, hb, embedToken_length]
  simp

theorem meanEmbedding_length (tokens : List (List Char)) :
    (meanEmbedding tokens).length = EMBEDDING_DIM := by
  unfold meanEmbedding
  rw [List.length_map, sumEmbedding_length]

theorem sumsq_nonneg (v : List ℝ) : 0 ≤ (v.map fun x => x * x).sum := by
  apply List.sum_nonneg
  intro x hx
  obtain ⟨y, _, hy⟩ := List.mem_map.mp hx
  rw [← hy]
  exact mul_self_nonneg y

theorem eq_zero_of_sumsq_eq_zero (v : List ℝ)
    (h : (v.map fun x => x * x).sum = 0) : ∀ x ∈ v, x = 0 := by
  induction v with
  | nil => intro x hx; simp at hx
  | cons a t ih =>
    simp only [List.map_cons, List.sum_cons] at h
    have h2 := (add_eq_zero_iff_of_nonneg (mul_self_nonneg a)
      (sumsq_nonneg t)).mp h
    intro x hx
    rcases List.mem_cons.mp hx with hx | hx
    · rw [hx]
      exact mul_self_eq_zero.mp h2.1
    · exact ih h2.2 x hx

theorem sumsq_map_div (v : List ℝ) (c : ℝ) :
    ((v.map fun x => x / c).map fun x => x * x).sum
      = (v.map fun x => x * x).sum / (c * c) := by
  induction v with
  | nil => simp
  | cons a t ih =>
    simp only [List.map_cons, List.sum_cons, ih]
    rw [div_mul_div_comm, add_div]

/-- C7: the deterministic embedder's output contract — a text with no tokens
(the empty string included) embeds to the 384-dimensional zero vector; a text
with at least one token embeds to a vector of Euclidean norm exactly 1,
except when the arithmetic mean of the token vectors is the exact zero
vector, in which case that unnormalized zero mean (the zero vector) is
returned. -/
theorem C7_embed_contract :
    (∀ t : String, tokenize t = [] →
      embedText t = List.replicate EMBEDDING_DIM 0)
    ∧ tokenize "" = []
    ∧ (∀ t : String, tokenize t ≠ [] →
        (normL2 (meanEmbedding (tokenize t)) = 0 →
          embedText t = meanEmbedding (tokenize t)
          ∧ meanEmbedding (tokenize t) = List.replicate EMBEDDING_DIM 0)
        ∧ (normL2 (meanEmbedding (tokenize t)) ≠ 0 →
          normL2 (embedText t) = 1)) := by
  have hemb : ∀ t : String, tokenize t ≠ [] →
      embedText t = (if 0 < normL2 (meanEmbedding (tokenize t)) then
        (meanEmbedding (tokenize t)).map
          fun x => x / normL2 (meanEmbedding (tokenize t))
      else meanEmbedding (tokenize t)) := by
    intro t ht
    unfold embedText
    rw [if_neg (by simpa [List.isEmpty_iff] using ht)]
  refine ⟨?_, by decide, ?_⟩
  · intro t h
    unfold embedText
    rw [if_pos (by simp [h])]
  · intro t ht
    constructor
    · intro hz
      have hbranch : embedText t = meanEmbedding (tokenize t) := by
        rw [hemb t ht, if_neg (by rw [hz]; exact lt_irrefl 0)]
      refine ⟨hbranch, ?_⟩
      have hsum : ((meanEmbedding (tokenize t)).map fun x => x * x).sum = 0 := by
        unfold normL2 at hz
        have hle := Real.sqrt_eq_zero'.mp hz
        exact le_antisymm hle (sumsq_nonneg _)
      have hall := eq_zero_of_sumsq_eq_zero _ hsum
      rw [List.eq_replicate_iff]
      exact ⟨meanEmbedding_length _, hall⟩
    · intro hnz
      have hpos : 0 < normL2 (meanEmbedding (tokenize t)) :=
        lt_of_le_of_ne (Real.sqrt_nonneg _) (Ne.symm hnz)
      rw [hemb t ht, if_pos hpos]
      unfold normL2
      rw [sumsq_map_div]
      rw [Real.mul_self_sqrt (sumsq_nonneg _)]
      have hsne : ((meanEmbedding (tokenize t)).map fun x => x * x).sum ≠ 0 := by
        intro hh
        apply hnz
        unfold normL2
        rw [hh, Real.sqrt_zero]
      rw [div_self hsne, Real.sqrt_one]

theorem C7_witness : embedText "" = List.replicate EMBEDDING_DIM 0 :=
  C7_embed_contract.1 "" C7_embed_contract.2.1

end Elysium
